import Mathlib

set_option maxRecDepth 8000

/-!
Verification development for the studybible-mcp repository.

Shallow embedding of the core engine:
* `_normalize_reference` (src/src/study_bible_mcp/database.py, lines 164-250),
* `build_passages` / `build_passage_entry` (src/scripts/build_database.py, lines 617-730),
* the recursive-CTE ancestor/descendant walks (database.py, lines 453-499),
* the Python-side BFS `graph_find_path` (database.py, lines 501-582),
* the Theographic entity-mention queries (database.py, lines 658-735) and
  `graph_find_person` (database.py, lines 422-444).

Python strings are embedded as `String`/`List Char`; SQL rows as structures;
SQL result sets as `List`s in result order; `None`/NULL as `Option`.
-/

namespace StudyBible

/-! ## Character classes of the Python regexes (ASCII range, as exercised). -/

/-- Python regex `\d` on the ASCII inputs used by the resolver. -/
def isDigitChar (c : Char) : Bool := '0' ≤ c && c ≤ '9'

/-- Python regex `\s` / `str.strip` whitespace on the ASCII range. -/
def isSpaceChar (c : Char) : Bool :=
  c = ' ' || c = '\t' || c = '\n' || c = '\r' || c = '\x0b' || c = '\x0c'

/-- Python regex `[a-zA-Z]`. -/
def isAlphaChar (c : Char) : Bool :=
  ('a' ≤ c && c ≤ 'z') || ('A' ≤ c && c ≤ 'Z')

/-- Python `str.strip()`: drop leading and trailing whitespace. -/
def stripChars (l : List Char) : List Char :=
  ((l.dropWhile isSpaceChar).reverse.dropWhile isSpaceChar).reverse

/-- Python `str.lower()` on the ASCII range: `Char.toLower` character-wise. -/
def lowerChars (l : List Char) : List Char := l.map Char.toLower

/-- One step of Python `str.title()`: uppercase an alphabetic character whose
predecessor is not alphabetic, lowercase other alphabetic characters, and keep
every non-alphabetic character. `prevAlpha` says whether the previous character
was alphabetic. -/
def titleStep (prevAlpha : Bool) (c : Char) : Char :=
  if isAlphaChar c then (if prevAlpha then c.toLower else c.toUpper) else c

/-- Python `str.title()` (ASCII behaviour). -/
def titleChars : Bool → List Char → List Char
  | _, [] => []
  | prevAlpha, c :: cs => titleStep prevAlpha c :: titleChars (isAlphaChar c) cs

/-- First-match association-list lookup: the semantics of a Python `dict.get`
built from a literal with distinct keys. -/
def lookupStr : List (String × String) → String → Option String
  | [], _ => none
  | (k, v) :: rest, key => if k = key then some v else lookupStr rest key

/-! ## The citation grammar

`_normalize_reference` matches the stripped input against
`^(\d?\s*[a-zA-Z]+)\s*(\d+):(\d+)(?:-(\d+))?$`.
The character classes at every boundary of this regex are disjoint, so greedy
matching never backtracks and the regex is equivalent to the deterministic
scanner below. `matchReference` returns the four captured groups
(book token, chapter, start verse, optional end verse) on success. -/

/-- The regex `^(\d?\s*[a-zA-Z]+)\s*(\d+):(\d+)(?:-(\d+))?$` as a
deterministic scanner over the character list. -/
def matchReference (l : List Char) :
    Option (List Char × List Char × List Char × Option (List Char)) :=
  let p : List Char × List Char :=
    match l with
    | c :: rest => if isDigitChar c then ([c], rest) else ([], l)
    | [] => ([], l)
  let sp := p.2.takeWhile isSpaceChar
  let rest1 := p.2.dropWhile isSpaceChar
  let letters := rest1.takeWhile isAlphaChar
  let rest2 := rest1.dropWhile isAlphaChar
  if letters.isEmpty then none else
  let book := p.1 ++ sp ++ letters
  let rest3 := rest2.dropWhile isSpaceChar
  let chap := rest3.takeWhile isDigitChar
  let rest4 := rest3.dropWhile isDigitChar
  if chap.isEmpty then none else
  match rest4 with
  | ':' :: rest5 =>
    let vs := rest5.takeWhile isDigitChar
    let rest6 := rest5.dropWhile isDigitChar
    if vs.isEmpty then none else
    match rest6 with
    | [] => some (book, chap, vs, none)
    | '-' :: rest7 =>
      let ve := rest7.takeWhile isDigitChar
      let rest8 := rest7.dropWhile isDigitChar
      if ve.isEmpty then none
      else if rest8.isEmpty then some (book, chap, vs, some ve) else none
    | _ => none
  | _ => none

/-- The `book_map` dict of `_normalize_reference` (database.py lines 169-236),
transcribed entry for entry. -/
def book_map : List (String × String) := [
  ("genesis", "Gen"), ("gen", "Gen"),
  ("exodus", "Exo"), ("exod", "Exo"), ("ex", "Exo"),
  ("leviticus", "Lev"), ("lev", "Lev"),
  ("numbers", "Num"), ("num", "Num"),
  ("deuteronomy", "Deu"), ("deut", "Deu"), ("dt", "Deu"),
  ("joshua", "Jos"), ("josh", "Jos"),
  ("judges", "Jdg"), ("judg", "Jdg"),
  ("ruth", "Rut"),
  ("1 samuel", "1Sa"), ("1sam", "1Sa"), ("1 sam", "1Sa"),
  ("2 samuel", "2Sa"), ("2sam", "2Sa"), ("2 sam", "2Sa"),
  ("1 kings", "1Ki"), ("1kgs", "1Ki"), ("1 kgs", "1Ki"),
  ("2 kings", "2Ki"), ("2kgs", "2Ki"), ("2 kgs", "2Ki"),
  ("1 chronicles", "1Ch"), ("1chr", "1Ch"), ("1 chr", "1Ch"),
  ("2 chronicles", "2Ch"), ("2chr", "2Ch"), ("2 chr", "2Ch"),
  ("ezra", "Ezr"),
  ("nehemiah", "Neh"), ("neh", "Neh"),
  ("esther", "Est"), ("esth", "Est"),
  ("job", "Job"),
  ("psalms", "Psa"), ("psalm", "Psa"), ("ps", "Psa"),
  ("proverbs", "Pro"), ("prov", "Pro"), ("pr", "Pro"),
  ("ecclesiastes", "Ecc"), ("eccl", "Ecc"),
  ("song of solomon", "Sng"), ("song", "Sng"), ("sos", "Sng"),
  ("isaiah", "Isa"), ("isa", "Isa"),
  ("jeremiah", "Jer"), ("jer", "Jer"),
  ("lamentations", "Lam"), ("lam", "Lam"),
  ("ezekiel", "Ezk"), ("ezek", "Ezk"), ("eze", "Ezk"),
  ("daniel", "Dan"), ("dan", "Dan"),
  ("hosea", "Hos"), ("hos", "Hos"),
  ("joel", "Jol"),
  ("amos", "Amo"),
  ("obadiah", "Oba"), ("obad", "Oba"),
  ("jonah", "Jon"),
  ("micah", "Mic"), ("mic", "Mic"),
  ("nahum", "Nam"), ("nah", "Nam"),
  ("habakkuk", "Hab"), ("hab", "Hab"),
  ("zephaniah", "Zep"), ("zeph", "Zep"),
  ("haggai", "Hag"), ("hag", "Hag"),
  ("zechariah", "Zec"), ("zech", "Zec"),
  ("malachi", "Mal"), ("mal", "Mal"),
  ("matthew", "Mat"), ("matt", "Mat"), ("mt", "Mat"),
  ("mark", "Mrk"), ("mk", "Mrk"),
  ("luke", "Luk"), ("lk", "Luk"),
  ("john", "Jhn"), ("jn", "Jhn"),
  ("acts", "Act"),
  ("romans", "Rom"), ("rom", "Rom"),
  ("1 corinthians", "1Co"), ("1cor", "1Co"), ("1 cor", "1Co"),
  ("2 corinthians", "2Co"), ("2cor", "2Co"), ("2 cor", "2Co"),
  ("galatians", "Gal"), ("gal", "Gal"),
  ("ephesians", "Eph"), ("eph", "Eph"),
  ("philippians", "Php"), ("phil", "Php"),
  ("colossians", "Col"), ("col", "Col"),
  ("1 thessalonians", "1Th"), ("1thess", "1Th"), ("1 thess", "1Th"),
  ("2 thessalonians", "2Th"), ("2thess", "2Th"), ("2 thess", "2Th"),
  ("1 timothy", "1Ti"), ("1tim", "1Ti"), ("1 tim", "1Ti"),
  ("2 timothy", "2Ti"), ("2tim", "2Ti"), ("2 tim", "2Ti"),
  ("titus", "Tit"),
  ("philemon", "Phm"), ("phlm", "Phm"),
  ("hebrews", "Heb"), ("heb", "Heb"),
  ("james", "Jas"), ("jas", "Jas"),
  ("1 peter", "1Pe"), ("1pet", "1Pe"), ("1 pet", "1Pe"),
  ("2 peter", "2Pe"), ("2pet", "2Pe"), ("2 pet", "2Pe"),
  ("1 john", "1Jn"), ("1jn", "1Jn"),
  ("2 john", "2Jn"), ("2jn", "2Jn"),
  ("3 john", "3Jn"), ("3jn", "3Jn"),
  ("jude", "Jud"),
  ("revelation", "Rev"), ("rev", "Rev")]

/-- The body of `_normalize_reference` at the character-list level: match the
stripped input; on success resolve the book token (lowercased and stripped)
through `book_map`, falling back to title-casing the token's first three
characters, and emit `Code.Chapter.Verse` built from the range start; on
failure return the input unchanged. -/
def normalizeChars (reference : List Char) : List Char :=
  match matchReference (stripChars reference) with
  | some (book, chap, vs, _) =>
    let book_key := stripChars (lowerChars book)
    let book_abbr : List Char :=
      match lookupStr book_map (String.mk book_key) with
      | some a => a.data
      | none => titleChars false (book.take 3)
    book_abbr ++ '.' :: chap ++ '.' :: vs
  | none => reference

/-- `_normalize_reference` (database.py lines 164-250). -/
def _normalize_reference (reference : String) : String :=
  String.mk (normalizeChars reference.data)

/-! ## PassageSegmenter (scripts/build_database.py, lines 617-730)

`build_passages` scans the verse rows in order, closing the accumulated run on
a book change (before appending the current verse, `section_type` NULL) and on
a truthy `section_end` (after appending, `section_type` = the marker), and
flushing the trailing run at the end. We model the loop as
`build_passages_groups`, which returns the closed verse runs paired with their
`section_type`; `build_passages` maps `build_passage_entry` over the runs,
exactly as the Python loop does at each close site. -/

/-- One row of the `verses` table as read by `build_passages`. -/
structure VerseRow where
  id : Nat
  reference : String
  book : String
  chapter : Nat
  verse : Nat
  text_english : String
  section_end : Option String
  deriving Repr, DecidableEq, Inhabited

/-- Python truthiness of the `section_end` column: NULL and the empty string
are falsy. -/
def truthyOpt : Option String → Bool
  | none => false
  | some s => s ≠ ""

/-- A row of the `passages` table, as assembled by `build_passage_entry`. -/
structure PassageEntry where
  reference_start : String
  reference_end : String
  book : String
  start_verse_id : Nat
  end_verse_id : Nat
  text_combined : String
  verse_count : Nat
  section_type : Option String
  deriving Repr, DecidableEq, Inhabited

/-- `build_passage_entry` (build_database.py lines 710-730). The Python
function raises on an empty list; every call site guards against that, and the
model returns a default entry there (never exercised below). -/
def build_passage_entry (verses : List VerseRow) (section_type : Option String) :
    PassageEntry :=
  match verses with
  | [] => default
  | first :: restv =>
    let last := (first :: restv).getLast (List.cons_ne_nil first restv)
    { reference_start := first.reference
      reference_end := last.reference
      book := first.book
      start_verse_id := first.id
      end_verse_id := last.id
      text_combined :=
        String.intercalate " "
          (verses.filterMap (fun v => if v.text_english ≠ "" then some v.text_english else none))
      verse_count := verses.length
      section_type := section_type }

/-- Book-boundary close of one scan step (`section_type` NULL), emitted before
the current verse is appended; empty when the book did not change or the
accumulator is empty. -/
def stepClosed1 (cb : Option String) (v : VerseRow) (acc : List VerseRow) :
    List (List VerseRow × Option String) :=
  if cb ≠ none ∧ cb ≠ some v.book then
    (if acc ≠ [] then [(acc, none)] else [])
  else []

/-- The accumulator surviving the book-boundary check of one scan step. -/
def stepAcc1 (cb : Option String) (v : VerseRow) (acc : List VerseRow) : List VerseRow :=
  if cb ≠ none ∧ cb ≠ some v.book then [] else acc

/-- Section-marker close of one scan step, emitted after the current verse is
appended (`acc2` already ends with it). -/
def stepClosed2 (v : VerseRow) (acc2 : List VerseRow) :
    List (List VerseRow × Option String) :=
  if truthyOpt v.section_end then (if acc2 ≠ [] then [(acc2, v.section_end)] else []) else []

/-- The accumulator surviving the section-marker check of one scan step. -/
def stepAcc3 (v : VerseRow) (acc2 : List VerseRow) : List VerseRow :=
  if truthyOpt v.section_end then [] else acc2

/-- The scan loop of `build_passages`, returning each closed accumulator run
with the `section_type` it was closed under. `cb` is the book of the previous
verse (`none` before the first verse) and `acc` the accumulator. -/
def build_passages_loop :
    List VerseRow → Option String → List VerseRow → List (List VerseRow × Option String)
  | [], _, acc => if acc ≠ [] then [(acc, none)] else []
  | v :: rest, cb, acc =>
    stepClosed1 cb v acc ++ stepClosed2 v (stepAcc1 cb v acc ++ [v]) ++
      build_passages_loop rest (some v.book) (stepAcc3 v (stepAcc1 cb v acc ++ [v]))

/-- The closed verse runs of `build_passages`, in emission order. -/
def build_passages_groups (verses : List VerseRow) : List (List VerseRow × Option String) :=
  build_passages_loop verses none []

/-- `build_passages` (build_database.py lines 617-707): the passage rows
inserted, in insertion order. -/
def build_passages (verses : List VerseRow) : List PassageEntry :=
  (build_passages_groups verses).map (fun g => build_passage_entry g.1 g.2)

/-! ## Graph data model (Theographic tables)

`graph_people.id` is `TEXT PRIMARY KEY` (database.py line 1084), so joins on
`p.id` are modelled with `List.find?`. Family edges are rows of
`graph_family_edges`. -/

/-- One row of `graph_people` (the columns the modelled queries read). -/
structure Person where
  id : String
  name : String
  also_called : Option String
  gender : Option String
  birth_year : Option Int
  death_year : Option Int
  deriving Repr, DecidableEq, Inhabited

/-- One row of `graph_family_edges`. -/
structure FamilyEdge where
  from_person_id : String
  to_person_id : String
  relationship_type : String
  deriving Repr, DecidableEq, Inhabited

/-! ## AncestryTraversal (database.py lines 453-499)

Both functions run a `WITH RECURSIVE ... UNION ALL` CTE. SQLite evaluates the
base `SELECT` and then re-applies the recursive `SELECT` to every row it
produced, keeping duplicates (`UNION ALL` does not deduplicate and there is no
visited set). Because the recursive `SELECT` requires `generation <
max_generations` and emits `generation + 1`, the rows stratify into levels:
level 0 is the base row, level `g+1` is the recursive step applied to level
`g`, and level `max_generations + 1` is empty. `cteLevels` iterates the step
level by level; the final `ORDER BY generation` is satisfied by this level
order. -/

/-- One row of the `ancestors`/`descendants` CTE result. -/
structure AncestorRow where
  id : String
  name : String
  gender : Option String
  birth_year : Option Int
  death_year : Option Int
  generation : Nat
  relationship : String
  deriving Repr, DecidableEq, Inhabited

/-- Parent-typed relationship filter shared by both CTEs. -/
def parentRel (e : FamilyEdge) : Prop :=
  e.relationship_type = "father_of" ∨ e.relationship_type = "mother_of"

instance (e : FamilyEdge) : Decidable (parentRel e) := by
  unfold parentRel; infer_instance

/-- The recursive `SELECT` shared by the two CTEs, parametrised by which edge
column must equal the current row's id (`srcOf`) and which column names the
newly reached person (`dstOf`): join the parent-typed family edges with
`srcOf e = a.id`, then join `graph_people` on `dstOf e`, guarded by
`a.generation < max_generations`. -/
def familyStep (people : List Person) (edges : List FamilyEdge)
    (max_generations : Nat) (srcOf dstOf : FamilyEdge → String) (a : AncestorRow) :
    List AncestorRow :=
  if a.generation < max_generations then
    (edges.filter (fun e => srcOf e = a.id ∧ parentRel e)).flatMap
      (fun e =>
        ((people.filter (fun p => p.id = dstOf e)).map
          (fun p => ⟨p.id, p.name, p.gender, p.birth_year, p.death_year,
                     a.generation + 1, e.relationship_type⟩)))
  else []

/-- The recursive `SELECT` of `graph_get_ancestors`: edges are matched on
`e.to_person_id = a.id` and followed to `e.from_person_id` (child to parent). -/
def ancestors_step (people : List Person) (edges : List FamilyEdge)
    (max_generations : Nat) : AncestorRow → List AncestorRow :=
  familyStep people edges max_generations
    (fun e => e.to_person_id) (fun e => e.from_person_id)

/-- The recursive `SELECT` of `graph_get_descendants`: edges are matched on
`e.from_person_id = d.id` and followed to `e.to_person_id` (parent to child). -/
def descendants_step (people : List Person) (edges : List FamilyEdge)
    (max_generations : Nat) : AncestorRow → List AncestorRow :=
  familyStep people edges max_generations
    (fun e => e.from_person_id) (fun e => e.to_person_id)

/-- Fuelled level iteration of a recursive CTE: emit the rows the step derives
from the current level, then recurse on them. -/
def cteLevels (step : AncestorRow → List AncestorRow) :
    Nat → List AncestorRow → List AncestorRow
  | 0, _ => []
  | fuel + 1, cur => cur.flatMap step ++ cteLevels step fuel (cur.flatMap step)

/-- The base `SELECT` of both CTEs: the queried person at generation 0 with
relationship `self`. -/
def cteBase (people : List Person) (person_id : String) : List AncestorRow :=
  (people.filter (fun p => p.id = person_id)).map
    (fun p => ⟨p.id, p.name, p.gender, p.birth_year, p.death_year, 0, "self"⟩)

/-- `graph_get_ancestors` (database.py lines 453-475). `max_generations + 1`
levels suffice: the generation guard kills level `max_generations + 1`
(`graph_get_ancestors_fuel` below). -/
def graph_get_ancestors (people : List Person) (edges : List FamilyEdge)
    (person_id : String) (max_generations : Nat) : List AncestorRow :=
  cteBase people person_id ++
    cteLevels (ancestors_step people edges max_generations) (max_generations + 1)
      (cteBase people person_id)

/-- `graph_get_descendants` (database.py lines 477-499). -/
def graph_get_descendants (people : List Person) (edges : List FamilyEdge)
    (person_id : String) (max_generations : Nat) : List AncestorRow :=
  cteBase people person_id ++
    cteLevels (descendants_step people edges max_generations) (max_generations + 1)
      (cteBase people person_id)

/-- Level `n` of the CTE: the recursive step applied `n` times to the seed. -/
def iterStep (step : AncestorRow → List AncestorRow) : Nat → List AncestorRow → List AncestorRow
  | 0, cur => cur
  | n + 1, cur => (iterStep step n cur).flatMap step

/-- Endpoint of a child-to-parent (or parent-to-child) edge walk: the walked
column of the last edge, or the start for the empty walk. -/
def pathEnd (dstOf : FamilyEdge → String) (start : String) (path : List FamilyEdge) : String :=
  match path.getLast? with
  | some e => dstOf e
  | none => start

/-- Relationship label a walk carries: the last edge's type, `self` for the
empty walk. -/
def lastRel (path : List FamilyEdge) : String :=
  match path.getLast? with
  | some e => e.relationship_type
  | none => "self"

/-- All parent-typed edge walks of a given length from `start`, following
edges whose `srcOf` column equals the current endpoint. -/
def familyPaths (edges : List FamilyEdge) (srcOf dstOf : FamilyEdge → String)
    (start : String) : Nat → List (List FamilyEdge)
  | 0 => [[]]
  | g + 1 => (familyPaths edges srcOf dstOf start g).flatMap
      (fun path =>
        (edges.filter (fun e => srcOf e = pathEnd dstOf start path ∧ parentRel e)).map
          (fun e => path ++ [e]))

/-- The person row with a given id (the id is a primary key); a placeholder
with that id if absent. -/
def personAt (people : List Person) (x : String) : Person :=
  (people.find? (fun q => q.id = x)).getD ⟨x, x, none, none, none, none⟩

/-- The CTE row a walk of length `g` denotes. -/
def pathRow (people : List Person) (dstOf : FamilyEdge → String) (start : String)
    (g : Nat) (path : List FamilyEdge) : AncestorRow :=
  ⟨(personAt people (pathEnd dstOf start path)).id,
   (personAt people (pathEnd dstOf start path)).name,
   (personAt people (pathEnd dstOf start path)).gender,
   (personAt people (pathEnd dstOf start path)).birth_year,
   (personAt people (pathEnd dstOf start path)).death_year,
   g, lastRel path⟩

/-! ## PathFinder (database.py lines 501-582)

`graph_find_path` builds a bidirectional adjacency dict from the whole
`graph_family_edges` table (forward entry plus reverse entry with the inverse
relation), then runs a FIFO BFS from `person1_id` with a visited set, skipping
expansion of entries at depth `max_depth` or more, returning the reconstructed
step list when `person2_id` first appears as a fresh neighbor, and `[]` when
the queue empties. The Python dict-of-lists appends entries in edge-scan
order; `adjacency` reproduces exactly that per-key order. The `while` loop is
modelled with fuel; `graph_find_path` passes fuel `2 * edges.length + 2`,
which `bfsAux_potential_enough` below proves sufficient (each iteration pops
one entry and every push marks a fresh node visited). -/

/-- The reverse-edge relation of the BFS adjacency build (database.py lines
520-524). -/
def inverseRelOf (rel : String) : String :=
  if rel = "father_of" ∨ rel = "mother_of" then "child_of"
  else if rel = "child_of" then "parent_of"
  else rel

/-- The flattened `(key, neighbor, relation)` adjacency entries in edge-scan
order: a forward and a reverse entry per stored edge. -/
def adjacencyEntries (edges : List FamilyEdge) : List (String × String × String) :=
  edges.flatMap (fun e =>
    [(e.from_person_id, e.to_person_id, e.relationship_type),
     (e.to_person_id, e.from_person_id, inverseRelOf e.relationship_type)])

/-- The adjacency dict: per-key neighbor list in insertion order. -/
def adjacency (edges : List FamilyEdge) (x : String) : List (String × String) :=
  (adjacencyEntries edges).filterMap
    (fun kv => if kv.1 = x then some kv.2 else none)

/-- The inner `for neighbor_id, rel_type in adjacency.get(current, [])` loop:
skip visited neighbors, return the extended node path on reaching the target,
otherwise mark visited and enqueue. Returns the found node path (if any)
together with the updated visited set and queue. -/
def expand (target : String) (path : List String) :
    List (String × String) → List String → List (String × List String) →
      Option (List String) × List String × List (String × List String)
  | [], visited, queue => (none, visited, queue)
  | (n, _) :: rest, visited, queue =>
    if n ∈ visited then expand target path rest visited queue
    else if n = target then (some (path ++ [n]), visited, queue)
    else expand target path rest (visited ++ [n]) (queue ++ [(n, path ++ [n])])

/-- The fuelled `while queue:` loop of `graph_find_path`: pop the head, skip
it when its depth reached `max_depth`, otherwise expand its neighbors. -/
def bfsAux (adj : String → List (String × String)) (target : String) (max_depth : Nat) :
    Nat → List (String × List String) → List String → Option (List String)
  | 0, _, _ => none
  | _ + 1, [], _ => none
  | fuel + 1, (current, path) :: queue, visited =>
    if max_depth ≤ path.length - 1 then bfsAux adj target max_depth fuel queue visited
    else
      match expand target path (adj current) visited queue with
      | (some found, _, _) => some found
      | (none, visited1, queue1) => bfsAux adj target max_depth fuel queue1 visited1

/-- One reconstructed step of the returned path. -/
structure PathStep where
  current_id : String
  next_id : String
  relationship_type : String
  depth : Nat
  from_name : String
  to_name : String
  deriving Repr, DecidableEq, Inhabited

/-- Relationship lookup during path reconstruction: the first adjacency entry
of `from_id` pointing at `to_id`, defaulting to `related_to`. -/
def stepRel (adj : String → List (String × String)) (from_id to_id : String) : String :=
  match (adj from_id).find? (fun nr => nr.1 = to_id) with
  | some nr => nr.2
  | none => "related_to"

/-- The `name_map.get(id, id)` name resolution of the reconstruction. -/
def nameOf (people : List Person) (x : String) : String :=
  match people.find? (fun p => p.id = x) with
  | some p => p.name
  | none => x

/-- Reconstruction of the step list from the found node path
(database.py lines 541-575); `i` is the index of the step being built. -/
def buildSteps (people : List Person) (adj : String → List (String × String)) :
    List String → Nat → List PathStep
  | f :: t :: rest, i =>
    ⟨f, t, stepRel adj f t, i + 1, nameOf people f, nameOf people t⟩ ::
      buildSteps people adj (t :: rest) (i + 1)
  | _, _ => []

/-- `graph_find_path` (database.py lines 501-582). -/
def graph_find_path (people : List Person) (edges : List FamilyEdge)
    (person1_id person2_id : String) (max_depth : Nat) : List PathStep :=
  if person1_id = person2_id then []
  else
    match bfsAux (adjacency edges) person2_id max_depth (2 * edges.length + 2)
        [(person1_id, [person1_id])] [person1_id] with
    | some node_path => buildSteps people (adjacency edges) node_path 0
    | none => []

/-! ## BFS correctness

`Walk adj a b n`: there is a walk of `n` adjacency steps from `a` to `b`. -/

inductive Walk (adj : String → List (String × String)) : String → String → Nat → Prop
  | refl (a : String) : Walk adj a a 0
  | step {a c : String} {n : Nat} (b : String) (r : String)
      (h : (b, r) ∈ adj a) (w : Walk adj b c n) : Walk adj a c (n + 1)

/-- A valid BFS node path: non-empty, starts at `p1`, ends at `c`, and
successive nodes are adjacent. -/
def PathOk (adj : String → List (String × String)) (p1 : String)
    (l : List String) (c : String) : Prop :=
  l ≠ [] ∧ l.head? = some p1 ∧ l.getLast? = some c ∧
    l.Chain' (fun a b => ∃ r, (b, r) ∈ adj a)

/-- The loop invariant of the BFS: over the queue, the visited set, and a
ghost assignment `dv` of the depth at which each visited node was enqueued. -/
structure BfsInv (adj : String → List (String × String)) (p1 target : String)
    (max_depth : Nat) (queue : List (String × List String)) (visited : List String)
    (dv : String → Nat) : Prop where
  p1_vis : p1 ∈ visited
  dv_p1 : dv p1 = 0
  target_nvis : target ∉ visited
  entries : ∀ e ∈ queue, e.1 ∈ visited ∧ PathOk adj p1 e.2 e.1 ∧ e.2.length - 1 = dv e.1
  dv_le : ∀ v ∈ visited, ∀ m, Walk adj p1 v m → dv v ≤ m
  sorted : List.Sorted (· ≤ ·) (queue.map (fun e => e.2.length))
  span : ∀ e1 ∈ queue, ∀ e2 ∈ queue, e1.2.length ≤ e2.2.length + 1
  closure : ∀ v ∈ visited, dv v < max_depth →
    (∃ e ∈ queue, e.1 = v) ∨ (∀ nr ∈ adj v, nr.1 ∈ visited)

/-! ## EntityMentionIndex (database.py lines 658-735) and entity resolution -/

/-- One row of `graph_places` (the columns read here). -/
structure Place where
  id : String
  name : String
  deriving Repr, DecidableEq, Inhabited

/-- One row of `graph_events` (the columns read here). -/
structure Event where
  id : String
  title : String
  deriving Repr, DecidableEq, Inhabited

/-- One row of `graph_verse_mentions`. -/
structure VerseMention where
  verse_ref : String
  entity_type : String
  entity_id : String
  deriving Repr, DecidableEq, Inhabited

/-- One result row of the entity queries: `entity_name` is the SQL `COALESCE`
over the three LEFT JOINs and is NULL when no entity row resolves. -/
structure EntityRow where
  entity_type : String
  entity_id : String
  entity_name : Option String
  deriving Repr, DecidableEq, Inhabited

/-- The three result buckets. -/
structure EntityBuckets where
  people : List EntityRow
  places : List EntityRow
  events : List EntityRow
  deriving Repr, DecidableEq, Inhabited

/-- `_THEOGRAPHIC_BOOK_MAP` (database.py lines 659-671), transcribed entry for
entry. -/
def _THEOGRAPHIC_BOOK_MAP : List (String × String) := [
  ("1Ch", "1Chr"), ("1Co", "1Cor"), ("1Jn", "1John"), ("1Ki", "1Kgs"),
  ("1Pe", "1Pet"), ("1Sa", "1Sam"), ("1Th", "1Thess"), ("1Ti", "1Tim"),
  ("2Ch", "2Chr"), ("2Co", "2Cor"), ("2Jn", "2John"), ("2Ki", "2Kgs"),
  ("2Pe", "2Pet"), ("2Sa", "2Sam"), ("2Th", "2Thess"), ("2Ti", "2Tim"),
  ("3Jn", "3John"), ("Act", "Acts"), ("Amo", "Amos"), ("Deu", "Deut"),
  ("Ecc", "Eccl"), ("Est", "Esth"), ("Exo", "Exod"), ("Ezk", "Ezek"),
  ("Jdg", "Judg"), ("Jhn", "John"), ("Jol", "Joel"), ("Jon", "Jonah"),
  ("Jos", "Josh"), ("Jud", "Jude"), ("Luk", "Luke"), ("Mat", "Matt"),
  ("Mrk", "Mark"), ("Nam", "Nah"), ("Oba", "Obad"), ("Phm", "Phlm"),
  ("Php", "Phil"), ("Pro", "Prov"), ("Psa", "Ps"), ("Rut", "Ruth"),
  ("Sng", "Song"), ("Tit", "Titus"), ("Zec", "Zech"), ("Zep", "Zeph")]

/-- Python `ref.split(".")` over the character list: split at every dot, with
no collapsing of empty pieces. `acc` holds the current piece reversed. -/
def splitDotsAux : List Char → List Char → List (List Char)
  | [], acc => [acc.reverse]
  | c :: rest, acc =>
    if c = '.' then acc.reverse :: splitDotsAux rest []
    else splitDotsAux rest (c :: acc)

/-- Python `ref.split(".")`. -/
def splitDots (l : List Char) : List (List Char) := splitDotsAux l []

/-- Python `".".join(parts)` over character lists. -/
def joinDots : List (List Char) → List Char
  | [] => []
  | [p] => p
  | p :: q :: rest => p ++ '.' :: joinDots (q :: rest)

/-- `_to_theographic_ref` (database.py lines 673-678): split on dots, map the
book part through `_THEOGRAPHIC_BOOK_MAP`, and rejoin. -/
def _to_theographic_ref (ref : String) : String :=
  match splitDots ref.data with
  | [] => String.mk (joinDots [])
  | p0 :: rest =>
    let mapped := match lookupStr _THEOGRAPHIC_BOOK_MAP (String.mk p0) with
      | some v => v.data
      | none => p0
    String.mk (joinDots (mapped :: rest))

/-- The SQL `COALESCE(p.name, pl.name, e.title)` over the three type-guarded
LEFT JOINs of the mention queries; ids are primary keys, so each join is a
`find?`. NULL (`none`) when the id resolves in no table. -/
def entity_name_of (people : List Person) (places : List Place) (events : List Event)
    (vm : VerseMention) : Option String :=
  match (if vm.entity_type = "person"
      then (people.find? (fun p => p.id = vm.entity_id)).map Person.name else none) with
  | some nm => some nm
  | none =>
    match (if vm.entity_type = "place"
        then (places.find? (fun pl => pl.id = vm.entity_id)).map Place.name else none) with
    | some nm => some nm
    | none =>
      match (if vm.entity_type = "event"
          then (events.find? (fun ev => ev.id = vm.entity_id)).map Event.title else none) with
      | some nm => some nm
      | none => none

/-- Bucket partition of the selected rows (the final Python loop). -/
def bucketize (rows : List EntityRow) : EntityBuckets :=
  ⟨rows.filter (fun r => r.entity_type = "person"),
   rows.filter (fun r => r.entity_type = "place"),
   rows.filter (fun r => r.entity_type = "event")⟩

/-- `graph_get_verse_entities` (database.py lines 680-706). -/
def graph_get_verse_entities (people : List Person) (places : List Place)
    (events : List Event) (mentions : List VerseMention) (verse_ref : String) :
    EntityBuckets :=
  bucketize
    ((mentions.filter (fun vm => vm.verse_ref = _to_theographic_ref verse_ref)).map
      (fun vm => ⟨vm.entity_type, vm.entity_id, entity_name_of people places events vm⟩))

/-- All suffixes of a character list, longest first. -/
def suffixes : List Char → List (List Char)
  | [] => [[]]
  | c :: rest => (c :: rest) :: suffixes rest

/-- SQLite `LIKE` (default, no ESCAPE): `%` matches any run (tried as "some
suffix of the text matches the rest of the pattern"), `_` any single
character, and plain characters match ASCII case-insensitively. -/
def sqlLike : List Char → List Char → Bool
  | [], s => s.isEmpty
  | '%' :: ps, s => (suffixes s).any (fun s2 => sqlLike ps s2)
  | '_' :: ps, s =>
    (match s with
     | [] => false
     | _ :: s2 => sqlLike ps s2)
  | p :: ps, s =>
    (match s with
     | [] => false
     | c :: s2 => (p.toLower = c.toLower) && sqlLike ps s2)

/-- `SELECT DISTINCT` row deduplication, keeping the first occurrence. -/
def dedupRows : List EntityRow → List EntityRow → List EntityRow
  | [], _ => []
  | r :: rest, seen =>
    if r ∈ seen then dedupRows rest seen else r :: dedupRows rest (seen ++ [r])

/-- `graph_get_chapter_entities` (database.py lines 708-735). -/
def graph_get_chapter_entities (people : List Person) (places : List Place)
    (events : List Event) (mentions : List VerseMention) (book : String)
    (chapter : Nat) : EntityBuckets :=
  let theo_book := match lookupStr _THEOGRAPHIC_BOOK_MAP book with
    | some v => v
    | none => book
  let ref_pattern := theo_book ++ "." ++ toString chapter ++ ".%"
  bucketize
    (dedupRows
      ((mentions.filter (fun vm => sqlLike ref_pattern.data vm.verse_ref.data)).map
        (fun vm => ⟨vm.entity_type, vm.entity_id, entity_name_of people places events vm⟩))
      [])

/-- The LIKE pattern the chapter-level query builds: the book code mapped
through `_THEOGRAPHIC_BOOK_MAP` (or kept as given), the chapter number, and a
trailing `%` wildcard. -/
def chapterPattern (book : String) (chapter : Nat) : String :=
  (match lookupStr _THEOGRAPHIC_BOOK_MAP book with
    | some v => v
    | none => book) ++ "." ++ toString chapter ++ ".%"

/-- Python `str.lower()` at the string level. -/
def lowerStr (s : String) : String := String.mk (lowerChars s.data)

/-- The `WHERE` clause of `graph_find_person` (database.py lines 435-436):
case-insensitive exact match on `name`, or `LIKE '%name%'` on `also_called`
(`NULL` never matches). -/
def person_matches (name : String) (p : Person) : Bool :=
  (lowerStr p.name = lowerStr name) ||
    (match p.also_called with
     | some a => sqlLike (lowerStr ("%" ++ name ++ "%")).data (lowerStr a).data
     | none => false)

/-- Total family-edge degree of a person: the summed `fe.cnt` of the
`UNION ALL` subquery of `graph_find_person`. -/
def family_degree (edges : List FamilyEdge) (p : Person) : Nat :=
  edges.countP (fun e => e.from_person_id = p.id) +
    edges.countP (fun e => e.to_person_id = p.id)

/-- `LENGTH(COALESCE(p.also_called, ''))`. -/
def also_called_length (p : Person) : Nat :=
  match p.also_called with
  | some a => a.length
  | none => 0

/-- The `ORDER BY` of `graph_find_person` as a sort predicate: exact name
matches first, then longer `also_called` first, then higher family degree. -/
def find_person_le (name : String) (edges : List FamilyEdge) (p q : Person) : Bool :=
  let fp : Nat := if lowerStr p.name = lowerStr name then 0 else 1
  let fq : Nat := if lowerStr q.name = lowerStr name then 0 else 1
  (fp < fq) ||
    (fp = fq &&
      ((also_called_length q < also_called_length p) ||
        (also_called_length p = also_called_length q &&
          family_degree edges q ≤ family_degree edges p)))

/-- `graph_find_person` (database.py lines 422-444): filter, order, `LIMIT 10`. -/
def graph_find_person (people : List Person) (edges : List FamilyEdge) (name : String) :
    List Person :=
  ((people.filter (person_matches name)).mergeSort (find_person_le name edges)).take 10

/-- Character-wise case-insensitive equality of two runs of equal length. -/
def litEq : List Char → List Char → Bool
  | [], [] => true
  | a :: as, b :: bs => (a.toLower = b.toLower) && litEq as bs
  | _, _ => false

/-! ## Concrete fixtures used by the claim witnesses and counterexamples. -/

/-- Five Genesis verses, section marker on the last (Scenario B shape). -/
def exVerses : List VerseRow := [
  ⟨1, "Gen.1.1", "Gen", 1, 1, "In the beginning", none⟩,
  ⟨2, "Gen.1.2", "Gen", 1, 2, "And the earth", none⟩,
  ⟨3, "Gen.1.3", "Gen", 1, 3, "And God said", none⟩,
  ⟨4, "Gen.1.4", "Gen", 1, 4, "And God saw", none⟩,
  ⟨5, "Gen.1.5", "Gen", 1, 5, "And God called", some "petuchah"⟩]

def mkPerson (i n : String) : Person := ⟨i, n, none, none, none, none⟩

/-- Terah - Abraham - Isaac - Jacob chain (Scenario C/D shape). -/
def exPeople : List Person :=
  [mkPerson "terah" "Terah", mkPerson "abraham" "Abraham",
   mkPerson "isaac" "Isaac", mkPerson "jacob" "Jacob"]

def exEdges : List FamilyEdge :=
  [⟨"terah", "abraham", "father_of"⟩, ⟨"abraham", "isaac", "father_of"⟩,
   ⟨"isaac", "jacob", "father_of"⟩]

/-- Shared grandfather: `g` is `father_of` both parents of `x`, so `g` is
reachable from `x` by two distinct parent walks of length 2. -/
def c3people : List Person :=
  [mkPerson "x" "X", mkPerson "f" "F", mkPerson "m" "M", mkPerson "g" "G"]

def c3edges : List FamilyEdge :=
  [⟨"f", "x", "father_of"⟩, ⟨"m", "x", "mother_of"⟩,
   ⟨"g", "f", "father_of"⟩, ⟨"g", "m", "father_of"⟩]

/-- Two shortest `a`-`b` paths with different relation labels; edge-scan order
makes the forward BFS take the `father_of` route via `m1` and the backward BFS
the `partner_of` route via `m2`. -/
def c6edges : List FamilyEdge :=
  [⟨"a", "m1", "father_of"⟩, ⟨"m2", "a", "partner_of"⟩,
   ⟨"m2", "b", "partner_of"⟩, ⟨"m1", "b", "father_of"⟩]

/-- One person-typed mention resolvable in no entity table. -/
def c9mentions : List VerseMention := [⟨"John.3.16", "person", "p1"⟩]

/-- One mention stored under the untranslated canonical code `Jhn`. -/
def c10mentions : List VerseMention := [⟨"Jhn.3.16", "person", "p1"⟩]

/-- The verses closed at a book boundary plus the surviving accumulator are
exactly the verses that were pending. -/
theorem stepClosed1_flatten (cb : Option String) (v : VerseRow) (acc : List VerseRow) :
    ((stepClosed1 cb v acc).map Prod.fst).flatten ++ stepAcc1 cb v acc = acc := by
  unfold stepClosed1 stepAcc1
  by_cases hb : cb ≠ none ∧ cb ≠ some v.book
  · by_cases ha : acc = [] <;> simp [hb, ha]
  · simp [hb]

/-- The verses closed at a section marker plus the surviving accumulator are
exactly the verses that were pending. -/
theorem stepClosed2_flatten (v : VerseRow) (acc2 : List VerseRow) :
    ((stepClosed2 v acc2).map Prod.fst).flatten ++ stepAcc3 v acc2 = acc2 := by
  unfold stepClosed2 stepAcc3
  by_cases hs : truthyOpt v.section_end = true
  · by_cases ha : acc2 = [] <;> simp [hs, ha]
  · simp [hs]

/-- Every run closed at a book boundary is non-empty. -/
theorem stepClosed1_ne_nil (cb : Option String) (v : VerseRow) (acc : List VerseRow) :
    ∀ g ∈ stepClosed1 cb v acc, g.1 ≠ [] := by
  intro g hg
  unfold stepClosed1 at hg
  by_cases hb : cb ≠ none ∧ cb ≠ some v.book
  · rw [if_pos hb] at hg
    by_cases ha : acc = []
    · simp [ha] at hg
    · simp [ha] at hg; rw [hg]; exact ha
  · simp [hb] at hg

/-- Every run closed at a section marker is non-empty. -/
theorem stepClosed2_ne_nil (v : VerseRow) (acc2 : List VerseRow) :
    ∀ g ∈ stepClosed2 v acc2, g.1 ≠ [] := by
  intro g hg
  unfold stepClosed2 at hg
  by_cases hs : truthyOpt v.section_end = true
  · rw [if_pos hs] at hg
    by_cases ha : acc2 = []
    · simp [ha] at hg
    · simp [ha] at hg; rw [hg]; exact ha
  · simp [hs] at hg

/-- The scan loop partitions `acc ++ l`: concatenating the emitted runs in
order reproduces the pending accumulator followed by the remaining input. -/
theorem build_passages_loop_flatten (l : List VerseRow) :
    ∀ (cb : Option String) (acc : List VerseRow),
      ((build_passages_loop l cb acc).map Prod.fst).flatten = acc ++ l := by
  induction l with
  | nil =>
    intro cb acc
    by_cases h : acc = []
    · subst h; simp [build_passages_loop]
    · simp [build_passages_loop, h]
  | cons v rest ih =>
    intro cb acc
    simp only [build_passages_loop, List.map_append, List.flatten_append, ih]
    have h2 := stepClosed2_flatten v (stepAcc1 cb v acc ++ [v])
    have h1 := stepClosed1_flatten cb v acc
    calc ((stepClosed1 cb v acc).map Prod.fst).flatten ++
          ((stepClosed2 v (stepAcc1 cb v acc ++ [v])).map Prod.fst).flatten ++
            (stepAcc3 v (stepAcc1 cb v acc ++ [v]) ++ rest)
        = (((stepClosed1 cb v acc).map Prod.fst).flatten ++
            (((stepClosed2 v (stepAcc1 cb v acc ++ [v])).map Prod.fst).flatten ++
              stepAcc3 v (stepAcc1 cb v acc ++ [v]))) ++ rest := by
          simp [List.append_assoc]
      _ = (((stepClosed1 cb v acc).map Prod.fst).flatten ++ (stepAcc1 cb v acc ++ [v])) ++ rest := by
          rw [h2]
      _ = ((((stepClosed1 cb v acc).map Prod.fst).flatten ++ stepAcc1 cb v acc) ++ [v]) ++ rest := by
          simp [List.append_assoc]
      _ = (acc ++ [v]) ++ rest := by rw [h1]
      _ = acc ++ v :: rest := by simp

/-- Every run the scan loop emits is non-empty. -/
theorem build_passages_loop_ne_nil (l : List VerseRow) :
    ∀ (cb : Option String) (acc : List VerseRow),
      ∀ g ∈ build_passages_loop l cb acc, g.1 ≠ [] := by
  induction l with
  | nil =>
    intro cb acc g hg
    by_cases h : acc = []
    · simp [build_passages_loop, h] at hg
    · simp [build_passages_loop, h] at hg; rw [hg]; exact h
  | cons v rest ih =>
    intro cb acc g hg
    simp only [build_passages_loop, List.mem_append] at hg
    rcases hg with (hg | hg) | hg
    · exact stepClosed1_ne_nil _ _ _ g hg
    · exact stepClosed2_ne_nil _ _ g hg
    · exact ih _ _ g hg

/-- Iterating from an empty level yields nothing. -/
theorem cteLevels_nil (step : AncestorRow → List AncestorRow) :
    ∀ fuel, cteLevels step fuel [] = [] := by
  intro fuel
  induction fuel with
  | zero => rfl
  | succ f ih => simp [cteLevels, ih]

/-- Rows produced by `familyStep` sit one generation below their source row,
and only rows strictly inside the bound produce anything. -/
theorem familyStep_gen (people : List Person) (edges : List FamilyEdge)
    (max_generations : Nat) (srcOf dstOf : FamilyEdge → String)
    (a b : AncestorRow) (hb : b ∈ familyStep people edges max_generations srcOf dstOf a) :
    a.generation < max_generations ∧ b.generation = a.generation + 1 := by
  unfold familyStep at hb
  by_cases hg : a.generation < max_generations
  · refine ⟨hg, ?_⟩
    rw [if_pos hg] at hb
    rcases List.mem_flatMap.mp hb with ⟨e, _, hmem⟩
    rcases List.mem_map.mp hmem with ⟨p, _, hp⟩
    rw [← hp]
  · rw [if_neg hg] at hb
    simp at hb

/-- A level whose rows all sit at the generation bound is killed by the step. -/
theorem flatMap_familyStep_nil (people : List Person) (edges : List FamilyEdge)
    (max_generations : Nat) (srcOf dstOf : FamilyEdge → String)
    (cur : List AncestorRow) (h : ∀ r ∈ cur, max_generations ≤ r.generation) :
    cur.flatMap (familyStep people edges max_generations srcOf dstOf) = [] := by
  rw [List.flatMap_eq_nil_iff]
  intro a ha
  unfold familyStep
  rw [if_neg (Nat.not_lt.mpr (h a ha))]

/-- Once the current level is empty every further level is empty. -/
theorem cteLevels_of_flatMap_nil (step : AncestorRow → List AncestorRow)
    (cur : List AncestorRow) (h : cur.flatMap step = []) :
    ∀ fuel, cteLevels step fuel cur = [] := by
  intro fuel
  cases fuel with
  | zero => rfl
  | succ f => simp [cteLevels, h, cteLevels_nil]

/-- Fuel past `max_generations + 1` is irrelevant: every row of the seed level
needs at most `fuel` more levels once `max_generations < generation + fuel`
holds, so the level iteration has reached its fixpoint. -/
theorem cteLevels_stable (people : List Person) (edges : List FamilyEdge)
    (max_generations : Nat) (srcOf dstOf : FamilyEdge → String) :
    ∀ (fuel extra : Nat) (cur : List AncestorRow),
      (∀ r ∈ cur, max_generations < r.generation + fuel) →
      cteLevels (familyStep people edges max_generations srcOf dstOf) (fuel + extra) cur =
        cteLevels (familyStep people edges max_generations srcOf dstOf) fuel cur := by
  intro fuel
  induction fuel with
  | zero =>
    intro extra cur h
    have hnil : cur.flatMap (familyStep people edges max_generations srcOf dstOf) = [] :=
      flatMap_familyStep_nil people edges max_generations srcOf dstOf cur
        (fun r hr => Nat.le_of_lt_succ (Nat.lt_succ_of_lt (by simpa using h r hr)))
    rw [cteLevels_of_flatMap_nil _ _ hnil]
    rfl
  | succ f ih =>
    intro extra cur h
    have hshift : f + 1 + extra = (f + extra) + 1 := by omega
    rw [hshift]
    show cur.flatMap _ ++ cteLevels _ (f + extra) (cur.flatMap _) =
      cur.flatMap _ ++ cteLevels _ f (cur.flatMap _)
    congr 1
    apply ih
    intro r hr
    rcases List.mem_flatMap.mp hr with ⟨a, ha, hstep⟩
    have hg := familyStep_gen people edges max_generations srcOf dstOf a r hstep
    have := h a ha
    omega

/-- Every row either is a seed row or came out of some `familyStep`, so its
generation never exceeds the bound. -/
theorem cteLevels_gen_le (people : List Person) (edges : List FamilyEdge)
    (max_generations : Nat) (srcOf dstOf : FamilyEdge → String) :
    ∀ (fuel : Nat) (cur : List AncestorRow),
      ∀ r ∈ cteLevels (familyStep people edges max_generations srcOf dstOf) fuel cur,
        r.generation ≤ max_generations := by
  intro fuel
  induction fuel with
  | zero => intro cur r hr; simp [cteLevels] at hr
  | succ f ih =>
    intro cur r hr
    rw [cteLevels, List.mem_append] at hr
    rcases hr with hr | hr
    · rcases List.mem_flatMap.mp hr with ⟨a, _, hstep⟩
      have hg := familyStep_gen people edges max_generations srcOf dstOf a r hstep
      omega
    · exact ih _ r hr

/-- With a unique matching person and no walked-side parent edge, the CTE's
base row is the only row: the closure is `[self]`. -/
theorem cte_single_row (people : List Person) (edges : List FamilyEdge)
    (max_generations : Nat) (srcOf dstOf : FamilyEdge → String)
    (person_id : String) (p : Person)
    (hp : people.filter (fun q => q.id = person_id) = [p])
    (hedge : ∀ e ∈ edges, ¬(srcOf e = person_id ∧ parentRel e)) :
    cteBase people person_id ++
      cteLevels (familyStep people edges max_generations srcOf dstOf)
        (max_generations + 1) (cteBase people person_id) =
      [⟨p.id, p.name, p.gender, p.birth_year, p.death_year, 0, "self"⟩] := by
  have hbase : cteBase people person_id =
      [⟨p.id, p.name, p.gender, p.birth_year, p.death_year, 0, "self"⟩] := by
    unfold cteBase; rw [hp]; rfl
  have hstep : (cteBase people person_id).flatMap
      (familyStep people edges max_generations srcOf dstOf) = [] := by
    rw [hbase]
    show familyStep people edges max_generations srcOf dstOf _ ++ [] = []
    rw [List.append_nil]
    unfold familyStep
    by_cases hg : (0 : Nat) < max_generations
    · rw [if_pos hg]
      have : edges.filter (fun e =>
          decide (srcOf e = AncestorRow.id ⟨p.id, p.name, p.gender, p.birth_year,
            p.death_year, 0, "self"⟩ ∧ parentRel e)) = [] := by
        rw [List.filter_eq_nil_iff]
        intro e he
        have hpid : AncestorRow.id ⟨p.id, p.name, p.gender, p.birth_year,
            p.death_year, 0, "self"⟩ = p.id := rfl
        have hpp : p.id = person_id := by
          have := List.mem_filter.mp (hp ▸ List.mem_singleton_self p)
          simpa using this.2
        simp only [hpid, hpp]
        simpa using hedge e he
      rw [this]
      rfl
    · rw [if_neg hg]
  rw [cteLevels_of_flatMap_nil _ _ hstep, hbase, List.append_nil]

/-- Applying the step before iterating shifts the level index. -/
theorem iterStep_shift (step : AncestorRow → List AncestorRow) (n : Nat) :
    ∀ cur, iterStep step n (cur.flatMap step) = iterStep step (n + 1) cur := by
  induction n with
  | zero => intro cur; rfl
  | succ m ih =>
    intro cur
    show (iterStep step m (cur.flatMap step)).flatMap step = _
    rw [ih]
    rfl

/-- The fuelled iteration is the concatenation of levels `1..fuel`. -/
theorem cteLevels_decomp (step : AncestorRow → List AncestorRow) :
    ∀ (fuel : Nat) (cur : List AncestorRow),
      cteLevels step fuel cur =
        (List.range fuel).flatMap (fun i => iterStep step (i + 1) cur) := by
  intro fuel
  induction fuel with
  | zero => intro cur; rfl
  | succ f ih =>
    intro cur
    rw [cteLevels, ih, List.range_succ_eq_map]
    simp only [List.flatMap_cons, List.flatMap_map]
    congr 1
    congr 1
    funext i
    show iterStep step (i + 1) (cur.flatMap step) = _
    rw [iterStep_shift]

theorem find?_eq_head?_filter {α : Type} (pred : α → Bool) :
    ∀ l : List α, l.find? pred = (l.filter pred).head? := by
  intro l
  induction l with
  | nil => rfl
  | cons a rest ih =>
    by_cases h : pred a = true
    · rw [List.find?_cons_of_pos _ h, List.filter_cons_of_pos h]; rfl
    · rw [List.find?_cons_of_neg _ (by simpa using h),
        List.filter_cons_of_neg (by simpa using h), ih]

/-- With primary-key ids, filtering `graph_people` on a present id gives
exactly that person's row. -/
theorem filter_people_eq_singleton (people : List Person)
    (hnodup : (people.map Person.id).Nodup) (p : Person) (hp : p ∈ people) (x : String)
    (hx : p.id = x) : people.filter (fun q => q.id = x) = [p] := by
  induction people with
  | nil => cases hp
  | cons a rest ih =>
    rw [List.map_cons, List.nodup_cons] at hnodup
    rcases List.mem_cons.mp hp with heq | hmem
    · subst heq
      rw [List.filter_cons_of_pos (by simpa using hx)]
      congr 1
      rw [List.filter_eq_nil_iff]
      intro q hq hpred
      have hqid : q.id = x := by simpa using hpred
      exact hnodup.1 (hx ▸ hqid ▸ List.mem_map_of_mem Person.id hq)
    · rw [List.filter_cons_of_neg ?_]
      · exact ih hnodup.2 hmem
      · intro hpred
        have haid : a.id = x := by simpa using hpred
        exact hnodup.1 (haid ▸ hx ▸ List.mem_map_of_mem Person.id hmem)

/-- The row `personAt` returns always carries the requested id. -/
theorem personAt_id (people : List Person) (x : String) : (personAt people x).id = x := by
  unfold personAt
  cases hfind : people.find? (fun q => q.id = x) with
  | none => rfl
  | some q =>
    have := List.find?_some hfind
    simpa using this

/-- With primary-key ids, `personAt` at a present id is that person. -/
theorem personAt_of_mem (people : List Person) (hnodup : (people.map Person.id).Nodup)
    (p : Person) (hp : p ∈ people) : personAt people p.id = p := by
  unfold personAt
  rw [find?_eq_head?_filter, filter_people_eq_singleton people hnodup p hp p.id rfl]
  rfl

theorem pathEnd_concat (dstOf : FamilyEdge → String) (start : String)
    (path : List FamilyEdge) (e : FamilyEdge) :
    pathEnd dstOf start (path ++ [e]) = dstOf e := by
  unfold pathEnd
  rw [List.getLast?_concat]

theorem lastRel_concat (path : List FamilyEdge) (e : FamilyEdge) :
    lastRel (path ++ [e]) = e.relationship_type := by
  unfold lastRel
  rw [List.getLast?_concat]

theorem flatMap_eq_map_of_singleton {α β : Type} (L : List α) (f : α → List β) (g : α → β)
    (h : ∀ e ∈ L, f e = [g e]) : L.flatMap f = L.map g := by
  induction L with
  | nil => rfl
  | cons a rest ih =>
    rw [List.flatMap_cons, List.map_cons, h a (List.mem_cons_self a rest),
      ih (fun e he => h e (List.mem_cons_of_mem a he))]
    rfl

/-- Level `g` of the CTE is exactly one row per length-`g` parent walk from
the queried person (`UNION ALL` keeps one row per derivation): the
per-derivation semantics of the recursive query, assuming primary-key ids,
a present start person, and edges whose walked endpoint exists. -/
theorem iterStep_eq_pathRows (people : List Person) (edges : List FamilyEdge)
    (max_generations : Nat) (srcOf dstOf : FamilyEdge → String) (pid : String) (p0 : Person)
    (hnodup : (people.map Person.id).Nodup) (hp0 : p0 ∈ people) (hpid : p0.id = pid)
    (hclosed : ∀ e ∈ edges, ∃ p ∈ people, p.id = dstOf e) :
    ∀ g, g ≤ max_generations →
      iterStep (familyStep people edges max_generations srcOf dstOf) g
          (cteBase people pid) =
        (familyPaths edges srcOf dstOf pid g).map (pathRow people dstOf pid g) := by
  intro g
  induction g with
  | zero =>
    intro _
    show cteBase people pid = _
    unfold cteBase familyPaths pathRow
    rw [filter_people_eq_singleton people hnodup p0 hp0 pid hpid]
    have hend : pathEnd dstOf pid ([] : List FamilyEdge) = pid := rfl
    have hrel : lastRel ([] : List FamilyEdge) = "self" := rfl
    simp only [List.map_cons, List.map_nil, hend, hrel]
    rw [← hpid, personAt_of_mem people hnodup p0 hp0]
  | succ g ih =>
    intro hle
    have hg : g < max_generations := Nat.lt_of_succ_le hle
    show (iterStep _ g (cteBase people pid)).flatMap _ = _
    rw [ih (Nat.le_of_lt hg)]
    rw [List.flatMap_map]
    show (familyPaths edges srcOf dstOf pid g).flatMap
        (fun path => familyStep people edges max_generations srcOf dstOf
          (pathRow people dstOf pid g path)) = _
    rw [show familyPaths edges srcOf dstOf pid (g + 1) =
        (familyPaths edges srcOf dstOf pid g).flatMap
          (fun path =>
            (edges.filter (fun e => srcOf e = pathEnd dstOf pid path ∧ parentRel e)).map
              (fun e => path ++ [e])) from rfl]
    rw [List.map_flatMap]
    apply List.flatMap_congr
    intro path _
    unfold familyStep
    rw [if_pos (show (pathRow people dstOf pid g path).generation < max_generations from hg)]
    have hid : (pathRow people dstOf pid g path).id = pathEnd dstOf pid path :=
      personAt_id people _
    rw [List.map_map]
    simp only [hid]
    apply flatMap_eq_map_of_singleton
    intro e he
    have hedge : e ∈ edges := List.mem_of_mem_filter he
    rcases hclosed e hedge with ⟨pe, hpe, hpeid⟩
    rw [filter_people_eq_singleton people hnodup pe hpe (dstOf e) hpeid]
    show [_] = [_]
    congr 1
    unfold pathRow
    simp only [Function.comp_apply]
    rw [pathEnd_concat, lastRel_concat]
    rw [← hpeid, personAt_of_mem people hnodup pe hpe]

theorem walk_zero {adj : String → List (String × String)} {a b : String}
    (w : Walk adj a b 0) : a = b := by
  cases w; rfl

theorem walk_snoc {adj : String → List (String × String)} {a b : String} {n : Nat}
    (w : Walk adj a b n) : ∀ (c : String) (r : String), (c, r) ∈ adj b →
      Walk adj a c (n + 1) := by
  induction w with
  | refl x => intro c r h; exact Walk.step c r h (Walk.refl c)
  | step b r h w ih =>
    intro c r2 h2
    exact Walk.step _ r h (ih c r2 h2)

theorem walk_snoc_inv {adj : String → List (String × String)} :
    ∀ {n : Nat} {a c : String}, Walk adj a c (n + 1) →
      ∃ b r, Walk adj a b n ∧ (c, r) ∈ adj b := by
  intro n
  induction n with
  | zero =>
    intro a c w
    cases w with
    | step b r h w0 =>
      have := walk_zero w0
      subst this
      exact ⟨a, r, Walk.refl a, h⟩
  | succ m ih =>
    intro a c w
    cases w with
    | step b r h w1 =>
      rcases ih w1 with ⟨y, r2, wy, hy⟩
      exact ⟨y, r2, Walk.step b r h wy, hy⟩

theorem pathOk_singleton (adj : String → List (String × String)) (p1 : String) :
    PathOk adj p1 [p1] p1 :=
  ⟨by simp, rfl, rfl, List.chain'_singleton p1⟩

theorem pathOk_concat {adj : String → List (String × String)} {p1 : String}
    {l : List String} {c : String} (h : PathOk adj p1 l c) {n : String} {r : String}
    (hn : (n, r) ∈ adj c) : PathOk adj p1 (l ++ [n]) n := by
  obtain ⟨hne, hhead, hlast, hchain⟩ := h
  refine ⟨by simp, ?_, ?_, ?_⟩
  · cases l with
    | nil => cases hne rfl
    | cons x rest => simpa using hhead
  · rw [List.getLast?_concat]
  · rw [List.chain'_append]
    refine ⟨hchain, List.chain'_singleton n, ?_⟩
    intro x hx y hy
    rw [hlast] at hx
    cases hx
    cases hy
    exact ⟨r, hn⟩

theorem pathOk_walk {adj : String → List (String × String)} :
    ∀ {l : List String} {p1 c : String}, PathOk adj p1 l c →
      Walk adj p1 c (l.length - 1) := by
  intro l
  induction l with
  | nil => intro p1 c h; cases h.1 rfl
  | cons x rest ih =>
    intro p1 c h
    obtain ⟨-, hhead, hlast, hchain⟩ := h
    have hx : x = p1 := by simpa using hhead
    subst hx
    cases rest with
    | nil =>
      have hc : x = c := by simpa using hlast
      subst hc
      exact Walk.refl x
    | cons y rest2 =>
      rw [List.chain'_cons] at hchain
      obtain ⟨⟨r, hr⟩, hchain2⟩ := hchain
      have hlast2 : (y :: rest2).getLast? = some c := by
        rw [← hlast, List.getLast?_cons_cons]
      have hw : Walk adj y c ((y :: rest2).length - 1) :=
        ih ⟨by simp, rfl, hlast2, hchain2⟩
      have hlen : (x :: y :: rest2).length - 1 = ((y :: rest2).length - 1) + 1 := by
        simp
      rw [hlen]
      exact Walk.step y r hr hw

/-- Core BFS completeness argument: if every shallow visited node has either a
queue entry or fully visited neighbors, the queue only holds deep entries, and
`dv` lower-bounds walk lengths, then every node reachable within `k` steps is
already visited. -/
theorem reach_visited (adj : String → List (String × String)) (p1 : String)
    (queue : List (String × List String)) (visited : List String)
    (dv : String → Nat) (k : Nat)
    (H1 : ∀ v ∈ visited, dv v < k →
      (∃ e ∈ queue, e.1 = v) ∨ (∀ nr ∈ adj v, nr.1 ∈ visited))
    (H2 : ∀ e ∈ queue, k ≤ dv e.1)
    (H3 : ∀ v ∈ visited, ∀ m, Walk adj p1 v m → dv v ≤ m)
    (H4 : p1 ∈ visited) :
    ∀ m, m ≤ k → ∀ x, Walk adj p1 x m → x ∈ visited := by
  intro m
  induction m with
  | zero =>
    intro _ x hw
    have := walk_zero hw
    subst this
    exact H4
  | succ m ih =>
    intro hle x hw
    rcases walk_snoc_inv hw with ⟨y, r, hwy, hyadj⟩
    have hy : y ∈ visited := ih (Nat.le_of_succ_le hle) y hwy
    have hdvy : dv y ≤ m := H3 y hy m hwy
    have hlt : dv y < k := Nat.lt_of_le_of_lt hdvy (Nat.lt_of_lt_of_le (Nat.lt_succ_self m) hle)
    rcases H1 y hy hlt with ⟨e, he, heq⟩ | hall
    · have := H2 e he
      rw [heq] at this
      omega
    · exact hall (x, r) hyadj

/-- During expansion of a node enqueued at depth `path0.length - 1`, any walk
reaching a still-unvisited node must be at least `path0.length` steps long:
shallower nodes were all visited earlier. -/
theorem no_short_walk (adj : String → List (String × String)) (p1 : String)
    (max_depth : Nat) (c : String) (path0 : List String)
    (hne : path0 ≠ [])
    (visited : List String) (queue : List (String × List String)) (dv : String → Nat)
    (hp1 : p1 ∈ visited)
    (hdvc : dv c = path0.length - 1)
    (hentries : ∀ e ∈ queue, e.1 ∈ visited ∧ PathOk adj p1 e.2 e.1 ∧ e.2.length - 1 = dv e.1)
    (hdvle : ∀ v ∈ visited, ∀ m, Walk adj p1 v m → dv v ≤ m)
    (hlb : ∀ e ∈ queue, path0.length ≤ e.2.length)
    (hclo : ∀ v ∈ visited, v ≠ c → dv v < max_depth →
      (∃ e ∈ queue, e.1 = v) ∨ (∀ nr ∈ adj v, nr.1 ∈ visited))
    (hk_lt : path0.length - 1 < max_depth) :
    ∀ x, x ∉ visited → ∀ m, Walk adj p1 x m → path0.length ≤ m := by
  intro x hx m hw
  by_contra hshort
  have hmle : m ≤ path0.length - 1 := by
    have : 1 ≤ path0.length := List.length_pos.mpr hne
    omega
  have hvis : x ∈ visited := by
    refine reach_visited adj p1 queue visited dv (path0.length - 1) ?_ ?_ hdvle hp1 m hmle x hw
    · intro v hv hlt
      have hvc : v ≠ c := by
        intro h
        rw [h, hdvc] at hlt
        omega
      exact hclo v hv hvc (Nat.lt_trans hlt hk_lt)
    · intro e he
      have h1 := (hentries e he).2.2
      have h2 := hlb e he
      omega
  exact hx hvis

/-- Specification of the inner neighbor loop. On `some`, the found path is the
popped path extended by the target, it is a valid path, and no walk to the
target is shorter than it. On `none`, the invariant pieces are re-established
for the updated visited set and queue (with an extended ghost `dv1`), all of
the expanded node's neighbors are visited, and the queue grew only by entries
one level deeper. -/
theorem expand_spec (adj : String → List (String × String)) (p1 target : String)
    (max_depth : Nat) (c : String) (path0 : List String)
    (hc_path : PathOk adj p1 path0 c)
    (hk_lt : path0.length - 1 < max_depth) :
    ∀ (nbrs done : List (String × String)) (visited : List String)
      (queue : List (String × List String)) (dv : String → Nat),
      adj c = done ++ nbrs →
      (∀ nr ∈ done, nr.1 ∈ visited) →
      p1 ∈ visited → dv p1 = 0 → target ∉ visited →
      c ∈ visited → dv c = path0.length - 1 →
      (∀ e ∈ queue, e.1 ∈ visited ∧ PathOk adj p1 e.2 e.1 ∧ e.2.length - 1 = dv e.1) →
      (∀ v ∈ visited, ∀ m, Walk adj p1 v m → dv v ≤ m) →
      (∀ e ∈ queue, path0.length ≤ e.2.length) →
      (∀ e ∈ queue, e.2.length ≤ path0.length + 1) →
      (∀ v ∈ visited, v ≠ c → dv v < max_depth →
        (∃ e ∈ queue, e.1 = v) ∨ (∀ nr ∈ adj v, nr.1 ∈ visited)) →
      ((∀ f v1 q1, expand target path0 nbrs visited queue = (some f, v1, q1) →
          f = path0 ++ [target] ∧ PathOk adj p1 f target ∧
          (∀ m, Walk adj p1 target m → path0.length ≤ m)) ∧
       (∀ v1 q1, expand target path0 nbrs visited queue = (none, v1, q1) →
          ∃ dv1 : String → Nat,
            (∀ v ∈ visited, dv1 v = dv v) ∧
            (∀ x, x ∈ visited → x ∈ v1) ∧
            p1 ∈ v1 ∧ dv1 p1 = 0 ∧ target ∉ v1 ∧
            (∀ e ∈ q1, e.1 ∈ v1 ∧ PathOk adj p1 e.2 e.1 ∧ e.2.length - 1 = dv1 e.1) ∧
            (∀ v ∈ v1, ∀ m, Walk adj p1 v m → dv1 v ≤ m) ∧
            (∀ e ∈ q1, path0.length ≤ e.2.length) ∧
            (∀ e ∈ q1, e.2.length ≤ path0.length + 1) ∧
            (∀ nr ∈ adj c, nr.1 ∈ v1) ∧
            (∀ v ∈ v1, v ≠ c → dv1 v < max_depth →
              (∃ e ∈ q1, e.1 = v) ∨ (∀ nr ∈ adj v, nr.1 ∈ v1)) ∧
            (∃ add, q1 = queue ++ add ∧ ∀ e ∈ add, e.2.length = path0.length + 1))) := by
  intro nbrs
  induction nbrs with
  | nil =>
    intro done visited queue dv hadj hdone hp1 hdvp1 htgt hcvis hdvc hentries hdvle hlb hub hclo
    constructor
    · intro f v1 q1 heq
      exact absurd heq (by simp [expand])
    · intro v1 q1 heq
      have hv1 : visited = v1 := by
        have := congrArg (fun t => t.2.1) heq
        simpa [expand] using this
      have hq1 : queue = q1 := by
        have := congrArg (fun t => t.2.2) heq
        simpa [expand] using this
      subst hv1; subst hq1
      refine ⟨dv, fun v _ => rfl, fun x hx => hx, hp1, hdvp1, htgt, hentries, hdvle,
        hlb, hub, ?_, ?_, ⟨[], by simp, by simp⟩⟩
      · intro nr hnr
        rw [hadj, List.append_nil] at hnr
        exact hdone nr hnr
      · intro v hv hvc hlt
        exact hclo v hv hvc hlt
  | cons nr0 rest ih =>
    intro done visited queue dv hadj hdone hp1 hdvp1 htgt hcvis hdvc hentries hdvle hlb hub hclo
    obtain ⟨n, r⟩ := nr0
    have hmem_n : (n, r) ∈ adj c := by
      rw [hadj]
      exact List.mem_append_right done (List.mem_cons_self _ _)
    by_cases hn : n ∈ visited
    · have hexp : expand target path0 ((n, r) :: rest) visited queue =
          expand target path0 rest visited queue := by
        simp [expand, hn]
      rw [hexp]
      refine ih (done ++ [(n, r)]) visited queue dv ?_ ?_ hp1 hdvp1 htgt hcvis hdvc
        hentries hdvle hlb hub hclo
      · rw [hadj, List.append_assoc]
        rfl
      · intro nr hnr
        rcases List.mem_append.mp hnr with h | h
        · exact hdone nr h
        · rw [List.mem_singleton] at h
          rw [h]
          exact hn
    · by_cases htg : n = target
      · have hexp : expand target path0 ((n, r) :: rest) visited queue =
            (some (path0 ++ [n]), visited, queue) := by
          show (if n ∈ visited then expand target path0 rest visited queue
            else if n = target then (some (path0 ++ [n]), visited, queue)
            else expand target path0 rest (visited ++ [n])
              (queue ++ [(n, path0 ++ [n])])) = _
          rw [if_neg hn, if_pos htg]
        rw [hexp]
        constructor
        · intro f v1 q1 heq
          have hf : f = path0 ++ [n] := by
            have := congrArg (fun t => t.1) heq
            simpa using this.symm
          subst hf
          rw [htg]
          have hmem_t : (target, r) ∈ adj c := htg ▸ hmem_n
          have htgt_n : target ∉ visited := htg ▸ hn
          refine ⟨rfl, pathOk_concat hc_path hmem_t, ?_⟩
          exact fun m hw => no_short_walk adj p1 max_depth c path0 hc_path.1 visited queue dv
            hp1 hdvc hentries hdvle hlb hclo hk_lt target htgt_n m hw
        · intro v1 q1 heq
          exact absurd heq (by simp)
      · have hexp : expand target path0 ((n, r) :: rest) visited queue =
            expand target path0 rest (visited ++ [n]) (queue ++ [(n, path0 ++ [n])]) := by
          simp [expand, hn, htg]
        rw [hexp]
        have hlen1 : 1 ≤ path0.length := List.length_pos.mpr hc_path.1
        have hnwalk : ∀ m, Walk adj p1 n m → path0.length ≤ m :=
          fun m hw => no_short_walk adj p1 max_depth c path0 hc_path.1 visited queue dv
            hp1 hdvc hentries hdvle hlb hclo hk_lt n hn m hw
        have hres := ih (done ++ [(n, r)]) (visited ++ [n]) (queue ++ [(n, path0 ++ [n])])
          (fun x => if x = n then path0.length else dv x) ?_ ?_ ?_ ?_ ?_ ?_ ?_ ?_ ?_ ?_ ?_ ?_
        · constructor
          · exact hres.1
          · intro v1 q1 heq
            rcases hres.2 v1 q1 heq with ⟨dv1, hagree, hsub, hip1, hidvp1, hitgt, hient,
              hidvle, hilb, hiub, hiadjc, hiclo, add1, hq1, haddlen⟩
            refine ⟨dv1, ?_, ?_, hip1, hidvp1, hitgt, hient, hidvle, hilb, hiub, hiadjc,
              hiclo, ⟨(n, path0 ++ [n]) :: add1, ?_, ?_⟩⟩
            · intro v hv
              have hvn : v ≠ n := fun h => hn (h ▸ hv)
              have := hagree v (List.mem_append_left [n] hv)
              rw [this]
              simp [hvn]
            · intro x hx
              exact hsub x (List.mem_append_left [n] hx)
            · rw [hq1, List.append_assoc]
              rfl
            · intro e he
              rcases List.mem_cons.mp he with h | h
              · rw [h]; simp
              · exact haddlen e h
        -- side goals: the hypotheses of ih at the pushed state
        · rw [hadj, List.append_assoc]
          rfl
        · intro nr hnr
          rcases List.mem_append.mp hnr with h | h
          · exact List.mem_append_left [n] (hdone nr h)
          · rw [List.mem_singleton] at h
            rw [h]
            exact List.mem_append_right visited (List.mem_singleton_self n)
        · exact List.mem_append_left [n] hp1
        · have hp1n : p1 ≠ n := fun h => hn (h ▸ hp1)
          simp [hp1n, hdvp1]
        · intro h
          rcases List.mem_append.mp h with h | h
          · exact htgt h
          · rw [List.mem_singleton] at h
            exact htg h.symm
        · exact List.mem_append_left [n] hcvis
        · have hcn : c ≠ n := fun h => hn (h ▸ hcvis)
          simp [hcn, hdvc]
        · intro e he
          rcases List.mem_append.mp he with h | h
          · obtain ⟨h1, h2, h3⟩ := hentries e h
            have hen : e.1 ≠ n := fun hh => hn (hh ▸ h1)
            exact ⟨List.mem_append_left [n] h1, h2, by simp [hen, h3]⟩
          · rw [List.mem_singleton] at h
            rw [h]
            refine ⟨List.mem_append_right visited (List.mem_singleton_self n),
              pathOk_concat hc_path hmem_n, ?_⟩
            simp
        · intro v hv m hw
          rcases List.mem_append.mp hv with h | h
          · have hvn : v ≠ n := fun hh => hn (hh ▸ h)
            simp only [hvn, if_false]
            exact hdvle v h m hw
          · rw [List.mem_singleton] at h
            subst h
            simp only [if_pos rfl]
            exact hnwalk m hw
        · intro e he
          rcases List.mem_append.mp he with h | h
          · exact hlb e h
          · rw [List.mem_singleton] at h
            rw [h]
            simp
        · intro e he
          rcases List.mem_append.mp he with h | h
          · exact hub e h
          · rw [List.mem_singleton] at h
            rw [h]
            simp
        · intro v hv hvc hlt
          rcases List.mem_append.mp hv with h | h
          · have hvn : v ≠ n := fun hh => hn (hh ▸ h)
            have hlt2 : dv v < max_depth := by simpa [hvn] using hlt
            rcases hclo v h hvc hlt2 with ⟨e, he, heq⟩ | hall
            · exact Or.inl ⟨e, List.mem_append_left _ he, heq⟩
            · exact Or.inr (fun nr hnr => List.mem_append_left [n] (hall nr hnr))
          · rw [List.mem_singleton] at h
            subst h
            exact Or.inl ⟨(v, path0 ++ [v]), List.mem_append_right queue
              (List.mem_singleton_self _), rfl⟩

theorem length_filter_mono {α : Type} (l : List α) (p q : α → Bool)
    (h : ∀ x, p x = true → q x = true) : (l.filter p).length ≤ (l.filter q).length := by
  induction l with
  | nil => exact Nat.le_refl 0
  | cons a rest ih =>
    by_cases hp : p a = true
    · rw [List.filter_cons_of_pos hp, List.filter_cons_of_pos (h a hp)]
      simpa using ih
    · rw [List.filter_cons_of_neg (by simpa using hp)]
      by_cases hq : q a = true
      · rw [List.filter_cons_of_pos hq]
        exact Nat.le_trans ih (by simp)
      · rw [List.filter_cons_of_neg (by simpa using hq)]
        exact ih

/-- Marking a fresh node visited strictly shrinks the unvisited part of the
universe. -/
theorem filter_drop_one (U : List String) :
    ∀ (visited : List String) (n : String), n ∈ U → n ∉ visited →
      (U.filter (fun x => decide (x ∉ visited ++ [n]))).length + 1 ≤
        (U.filter (fun x => decide (x ∉ visited))).length := by
  induction U with
  | nil => intro visited n hn; cases hn
  | cons u U ih =>
    intro visited n hn hnv
    by_cases hun : u = n
    · subst hun
      rw [List.filter_cons_of_neg (by simp), List.filter_cons_of_pos (by simpa using hnv)]
      have hmono : (U.filter (fun x => decide (x ∉ visited ++ [u]))).length ≤
          (U.filter (fun x => decide (x ∉ visited))).length := by
        apply length_filter_mono
        intro x hx
        simp only [decide_eq_true_eq] at hx ⊢
        intro hmem
        exact hx (List.mem_append_left [u] hmem)
      simpa using Nat.add_le_add_right hmono 1
    · have hn2 : n ∈ U := by
        rcases List.mem_cons.mp hn with h | h
        · exact absurd h.symm hun
        · exact h
      by_cases huv : u ∈ visited
      · rw [List.filter_cons_of_neg (by simp [huv]),
          List.filter_cons_of_neg (by simp [huv])]
        exact ih visited n hn2 hnv
      · have hu1 : u ∉ visited ++ [n] := by
          intro h
          rcases List.mem_append.mp h with h | h
          · exact huv h
          · rw [List.mem_singleton] at h; exact hun h
        rw [List.filter_cons_of_pos (by simpa using hu1),
          List.filter_cons_of_pos (by simpa using huv)]
        have := ih visited n hn2 hnv
        simpa [Nat.add_comm, Nat.add_left_comm] using Nat.add_le_add_right this 1

/-- The neighbor loop never increases `queue length + unvisited universe`:
each push pairs with a fresh visited node. -/
theorem expand_potential (target : String) (path0 : List String) (U : List String) :
    ∀ (nbrs : List (String × String)) (visited : List String)
      (queue : List (String × List String)),
      (∀ nr ∈ nbrs, nr.1 ∈ U) →
      ∀ v1 q1, expand target path0 nbrs visited queue = (none, v1, q1) →
        q1.length + (U.filter (fun x => decide (x ∉ v1))).length ≤
          queue.length + (U.filter (fun x => decide (x ∉ visited))).length := by
  intro nbrs
  induction nbrs with
  | nil =>
    intro visited queue _ v1 q1 heq
    have hv1 : visited = v1 := by
      have := congrArg (fun t => t.2.1) heq
      simpa [expand] using this
    have hq1 : queue = q1 := by
      have := congrArg (fun t => t.2.2) heq
      simpa [expand] using this
    subst hv1; subst hq1
    exact Nat.le_refl _
  | cons nr0 rest ih =>
    intro visited queue hnbrs v1 q1 heq
    obtain ⟨n, r⟩ := nr0
    have hnU : n ∈ U := hnbrs (n, r) (List.mem_cons_self _ _)
    have hrest : ∀ nr ∈ rest, nr.1 ∈ U := fun nr h => hnbrs nr (List.mem_cons_of_mem _ h)
    by_cases hn : n ∈ visited
    · have hexp : expand target path0 ((n, r) :: rest) visited queue =
          expand target path0 rest visited queue := by
        simp [expand, hn]
      rw [hexp] at heq
      exact ih visited queue hrest v1 q1 heq
    · by_cases htg : n = target
      · have hexp : expand target path0 ((n, r) :: rest) visited queue =
            (some (path0 ++ [n]), visited, queue) := by
          show (if n ∈ visited then expand target path0 rest visited queue
            else if n = target then (some (path0 ++ [n]), visited, queue)
            else expand target path0 rest (visited ++ [n])
              (queue ++ [(n, path0 ++ [n])])) = _
          rw [if_neg hn, if_pos htg]
        rw [hexp] at heq
        exact absurd heq (by simp)
      · have hexp : expand target path0 ((n, r) :: rest) visited queue =
            expand target path0 rest (visited ++ [n]) (queue ++ [(n, path0 ++ [n])]) := by
          simp [expand, hn, htg]
        rw [hexp] at heq
        have h1 := ih (visited ++ [n]) (queue ++ [(n, path0 ++ [n])]) hrest v1 q1 heq
        have h2 := filter_drop_one U visited n hnU hn
        have h3 : (queue ++ [(n, path0 ++ [n])]).length = queue.length + 1 := by simp
        omega

theorem sorted_of_constant (L : List Nat) (k : Nat) (h : ∀ x ∈ L, x = k) :
    List.Sorted (· ≤ ·) L := by
  induction L with
  | nil => exact List.sorted_nil
  | cons a rest ih =>
    rw [List.sorted_cons]
    refine ⟨?_, ih (fun x hx => h x (List.mem_cons_of_mem a hx))⟩
    intro b hb
    rw [h a (List.mem_cons_self a rest), h b (List.mem_cons_of_mem a hb)]

/-- Main BFS theorem: under the invariant and with fuel at least the
potential, a `some` result is a valid shortest path to the target within the
depth bound, and a `none` result means no walk of length at most `max_depth`
reaches the target. -/
theorem bfsAux_spec (adj : String → List (String × String)) (p1 target : String)
    (max_depth : Nat) (U : List String)
    (hU : ∀ x : String, ∀ nr ∈ adj x, nr.1 ∈ U) :
    ∀ (fuel : Nat) (queue : List (String × List String)) (visited : List String)
      (dv : String → Nat),
      BfsInv adj p1 target max_depth queue visited dv →
      queue.length + (U.filter (fun x => decide (x ∉ visited))).length + 1 ≤ fuel →
      ((∀ f, bfsAux adj target max_depth fuel queue visited = some f →
          PathOk adj p1 f target ∧ 2 ≤ f.length ∧ f.length - 1 ≤ max_depth ∧
          (∀ m, Walk adj p1 target m → f.length - 1 ≤ m)) ∧
       (bfsAux adj target max_depth fuel queue visited = none →
          ∀ m, m ≤ max_depth → ¬ Walk adj p1 target m)) := by
  intro fuel
  induction fuel with
  | zero =>
    intro queue visited dv _ hpot
    omega
  | succ f ih =>
    intro queue visited dv inv hpot
    cases queue with
    | nil =>
      constructor
      · intro f0 heq
        exact absurd heq (by simp [bfsAux])
      · intro _ m hm hw
        have hvis : target ∈ visited := by
          refine reach_visited adj p1 [] visited dv max_depth ?_ ?_ inv.dv_le inv.p1_vis
            m hm target hw
          · intro v hv hlt
            rcases inv.closure v hv hlt with ⟨e, he, _⟩ | hall
            · cases he
            · exact Or.inr hall
          · intro e he
            cases he
        exact inv.target_nvis hvis
    | cons head rest =>
      obtain ⟨c, path0⟩ := head
      have hhead := inv.entries (c, path0) (List.mem_cons_self _ _)
      obtain ⟨hcvis, hc_path, hc_len⟩ := hhead
      by_cases hskip : max_depth ≤ path0.length - 1
      · have hbfs : bfsAux adj target max_depth (f + 1) ((c, path0) :: rest) visited =
            bfsAux adj target max_depth f rest visited := by
          show (if max_depth ≤ path0.length - 1 then bfsAux adj target max_depth f rest visited
            else _) = _
          rw [if_pos hskip]
        rw [hbfs]
        have hsorted := inv.sorted
        rw [List.map_cons, List.sorted_cons] at hsorted
        refine ih rest visited dv ⟨inv.p1_vis, inv.dv_p1, inv.target_nvis, ?_, inv.dv_le,
          hsorted.2, ?_, ?_⟩ ?_
        · exact fun e he => inv.entries e (List.mem_cons_of_mem _ he)
        · exact fun e1 he1 e2 he2 =>
            inv.span e1 (List.mem_cons_of_mem _ he1) e2 (List.mem_cons_of_mem _ he2)
        · intro v hv hlt
          rcases inv.closure v hv hlt with ⟨e, he, heq⟩ | hall
          · rcases List.mem_cons.mp he with h | h
            · exfalso
              rw [h] at heq
              rw [← heq] at hlt
              rw [hc_len] at hskip
              omega
            · exact Or.inl ⟨e, h, heq⟩
          · exact Or.inr hall
        · have : ((c, path0) :: rest).length = rest.length + 1 := by simp
          omega
      · have hlt : path0.length - 1 < max_depth := Nat.lt_of_not_le hskip
        have hlb : ∀ e ∈ rest, path0.length ≤ e.2.length := by
          have hsorted := inv.sorted
          rw [List.map_cons, List.sorted_cons] at hsorted
          intro e he
          exact hsorted.1 e.2.length (List.mem_map_of_mem _ he)
        have hub : ∀ e ∈ rest, e.2.length ≤ path0.length + 1 := by
          intro e he
          exact inv.span e (List.mem_cons_of_mem _ he) (c, path0) (List.mem_cons_self _ _)
        have hclo : ∀ v ∈ visited, v ≠ c → dv v < max_depth →
            (∃ e ∈ rest, e.1 = v) ∨ (∀ nr ∈ adj v, nr.1 ∈ visited) := by
          intro v hv hvc hvlt
          rcases inv.closure v hv hvlt with ⟨e, he, heq⟩ | hall
          · rcases List.mem_cons.mp he with h | h
            · exfalso; rw [h] at heq; exact hvc heq.symm
            · exact Or.inl ⟨e, h, heq⟩
          · exact Or.inr hall
        have hes := expand_spec adj p1 target max_depth c path0 hc_path hlt (adj c) []
          visited rest dv rfl (by intro nr h; cases h) inv.p1_vis inv.dv_p1 inv.target_nvis
          hcvis hc_len.symm (fun e he => inv.entries e (List.mem_cons_of_mem _ he))
          inv.dv_le hlb hub hclo
        have hbfs : bfsAux adj target max_depth (f + 1) ((c, path0) :: rest) visited =
            (match expand target path0 (adj c) visited rest with
             | (some found, _, _) => some found
             | (none, visited1, queue1) => bfsAux adj target max_depth f queue1 visited1) := by
          show (if max_depth ≤ path0.length - 1 then _ else _) = _
          rw [if_neg hskip]
        rw [hbfs]
        cases hE : expand target path0 (adj c) visited rest with
        | mk o rest2 =>
          obtain ⟨v1, q1⟩ := rest2
          cases o with
          | some f0 =>
            obtain ⟨hf0, hfpath, hfmin⟩ := hes.1 f0 v1 q1 hE
            constructor
            · intro f1 heq
              have hf1 : f0 = f1 := by simpa using heq
              subst hf1
              have hplen : 1 ≤ path0.length := List.length_pos.mpr hc_path.1
              have hf0len : f0.length = path0.length + 1 := by rw [hf0]; simp
              refine ⟨hfpath, by omega, by omega, ?_⟩
              intro m hw
              have := hfmin m hw
              omega
            · intro heq
              exact absurd heq (by simp)
          | none =>
            obtain ⟨dv1, hagree, hsub, hip1, hidvp1, hitgt, hient, hidvle, hilb, hiub,
              hiadjc, hiclo, add1, hq1eq, haddlen⟩ := hes.2 v1 q1 hE
            have hinv1 : BfsInv adj p1 target max_depth q1 v1 dv1 := by
              refine ⟨hip1, hidvp1, hitgt, hient, hidvle, ?_, ?_, ?_⟩
              · rw [hq1eq, List.map_append]
                show List.Pairwise _ _
                rw [List.pairwise_append]
                have hsorted := inv.sorted
                rw [List.map_cons, List.sorted_cons] at hsorted
                refine ⟨hsorted.2, ?_, ?_⟩
                · apply sorted_of_constant _ (path0.length + 1)
                  intro x hx
                  rcases List.mem_map.mp hx with ⟨e, he, hxe⟩
                  rw [← hxe]
                  exact haddlen e he
                · intro x hx y hy
                  rcases List.mem_map.mp hx with ⟨e, he, hxe⟩
                  rcases List.mem_map.mp hy with ⟨e2, he2, hye⟩
                  rw [← hxe, ← hye, haddlen e2 he2]
                  exact hub e he
              · intro e1 he1 e2 he2
                have h1 := hiub e1 he1
                have h2 := hilb e2 he2
                omega
              · intro v hv hvlt
                by_cases hvc : v = c
                · subst hvc
                  exact Or.inr hiadjc
                · exact hiclo v hv hvc hvlt
            have hpot1 : q1.length + (U.filter (fun x => decide (x ∉ v1))).length + 1 ≤ f := by
              have hep := expand_potential target path0 U (adj c) visited rest (hU c) v1 q1 hE
              have : ((c, path0) :: rest).length = rest.length + 1 := by simp
              omega
            exact ih q1 v1 dv1 hinv1 hpot1

theorem adjacencyEntries_length (edges : List FamilyEdge) :
    (adjacencyEntries edges).length = 2 * edges.length := by
  unfold adjacencyEntries
  induction edges with
  | nil => rfl
  | cons e rest ih =>
    rw [List.flatMap_cons, List.length_append, ih]
    simp
    omega

/-- Every neighbor in the adjacency dict appears in the entry list's neighbor
column. -/
theorem adjacency_nbr_mem (edges : List FamilyEdge) (x : String) :
    ∀ nr ∈ adjacency edges x, nr.1 ∈ (adjacencyEntries edges).map (fun kv => kv.2.1) := by
  intro nr hnr
  unfold adjacency at hnr
  rcases List.mem_filterMap.mp hnr with ⟨kv, hkv, hsome⟩
  by_cases h : kv.1 = x
  · rw [if_pos h] at hsome
    have : kv.2 = nr := by injection hsome
    rw [← this]
    exact List.mem_map_of_mem _ hkv
  · rw [if_neg h] at hsome
    cases hsome

/-- The specification of the raw BFS call made by `graph_find_path`: fuel
`2 * edges.length + 2` is enough, and the result is a shortest path to
`person2_id` (or a certificate that none exists within the depth bound). -/
theorem graph_find_path_core (edges : List FamilyEdge) (p1 p2 : String)
    (max_depth : Nat) (hne : p1 ≠ p2) :
    ((∀ f, bfsAux (adjacency edges) p2 max_depth (2 * edges.length + 2)
          [(p1, [p1])] [p1] = some f →
        PathOk (adjacency edges) p1 f p2 ∧ 2 ≤ f.length ∧ f.length - 1 ≤ max_depth ∧
        (∀ m, Walk (adjacency edges) p1 p2 m → f.length - 1 ≤ m)) ∧
     (bfsAux (adjacency edges) p2 max_depth (2 * edges.length + 2)
          [(p1, [p1])] [p1] = none →
        ∀ m, m ≤ max_depth → ¬ Walk (adjacency edges) p1 p2 m)) := by
  have hinv : BfsInv (adjacency edges) p1 p2 max_depth [(p1, [p1])] [p1] (fun _ => 0) := by
    refine ⟨List.mem_singleton_self p1, rfl, ?_, ?_, ?_, ?_, ?_, ?_⟩
    · intro h
      rw [List.mem_singleton] at h
      exact hne h.symm
    · intro e he
      rw [List.mem_singleton] at he
      rw [he]
      exact ⟨List.mem_singleton_self p1, pathOk_singleton _ p1, rfl⟩
    · intro v _ m _
      exact Nat.zero_le m
    · simp
    · intro e1 he1 e2 he2
      rw [List.mem_singleton] at he1 he2
      rw [he1, he2]
      omega
    · intro v hv _
      rw [List.mem_singleton] at hv
      exact Or.inl ⟨(p1, [p1]), List.mem_singleton_self _, hv.symm⟩
  have hpot : ([(p1, [p1])] : List (String × List String)).length +
      (((p1 :: (adjacencyEntries edges).map (fun kv => kv.2.1)).filter
        (fun x => decide (x ∉ [p1]))).length) + 1 ≤ 2 * edges.length + 2 := by
    have h1 : ((p1 :: (adjacencyEntries edges).map (fun kv => kv.2.1)).filter
        (fun x => decide (x ∉ [p1]))) =
        ((adjacencyEntries edges).map (fun kv => kv.2.1)).filter
          (fun x => decide (x ∉ [p1])) := by
      rw [List.filter_cons_of_neg]
      simp
    rw [h1]
    have h2 := List.length_filter_le (fun x => decide (x ∉ [p1]))
      ((adjacencyEntries edges).map (fun kv => kv.2.1))
    rw [List.length_map] at h2
    rw [adjacencyEntries_length] at h2
    simp only [List.length_singleton]
    omega
  exact bfsAux_spec (adjacency edges) p1 p2 max_depth
    (p1 :: (adjacencyEntries edges).map (fun kv => kv.2.1))
    (fun x nr hnr => List.mem_cons_of_mem p1 (adjacency_nbr_mem edges x nr hnr))
    (2 * edges.length + 2) [(p1, [p1])] [p1] (fun _ => 0) hinv hpot

theorem buildSteps_length (people : List Person) (adj : String → List (String × String)) :
    ∀ (l : List String) (i : Nat), (buildSteps people adj l i).length = l.length - 1 := by
  intro l
  induction l with
  | nil => intro i; rfl
  | cons x rest ih =>
    intro i
    cases rest with
    | nil => rfl
    | cons y rest2 =>
      show (buildSteps people adj (y :: rest2) (i + 1)).length + 1 = _
      rw [ih (i + 1)]
      simp

theorem buildSteps_map_current (people : List Person) (adj : String → List (String × String)) :
    ∀ (l : List String) (i : Nat),
      (buildSteps people adj l i).map (fun s => s.current_id) = l.dropLast := by
  intro l
  induction l with
  | nil => intro i; rfl
  | cons x rest ih =>
    intro i
    cases rest with
    | nil => rfl
    | cons y rest2 =>
      show x :: (buildSteps people adj (y :: rest2) (i + 1)).map (fun s => s.current_id) = _
      rw [ih (i + 1)]
      rfl

theorem buildSteps_map_next (people : List Person) (adj : String → List (String × String)) :
    ∀ (l : List String) (i : Nat),
      (buildSteps people adj l i).map (fun s => s.next_id) = l.tail := by
  intro l
  induction l with
  | nil => intro i; rfl
  | cons x rest ih =>
    intro i
    cases rest with
    | nil => rfl
    | cons y rest2 =>
      show y :: (buildSteps people adj (y :: rest2) (i + 1)).map (fun s => s.next_id) = _
      rw [ih (i + 1)]
      rfl

theorem buildSteps_map_depth (people : List Person) (adj : String → List (String × String)) :
    ∀ (l : List String) (i : Nat),
      (buildSteps people adj l i).map (fun s => s.depth) =
        List.range' (i + 1) (l.length - 1) := by
  intro l
  induction l with
  | nil => intro i; rfl
  | cons x rest ih =>
    intro i
    cases rest with
    | nil => rfl
    | cons y rest2 =>
      show (i + 1) :: (buildSteps people adj (y :: rest2) (i + 1)).map (fun s => s.depth) = _
      rw [ih (i + 1)]
      have : (x :: y :: rest2).length - 1 = ((y :: rest2).length - 1) + 1 := by simp
      rw [this, List.range'_succ]

theorem buildSteps_chain (people : List Person) (adj : String → List (String × String)) :
    ∀ (l : List String) (i : Nat),
      List.Chain' (fun s t => s.next_id = t.current_id) (buildSteps people adj l i) := by
  intro l
  induction l with
  | nil => intro i; exact List.chain'_nil
  | cons x rest ih =>
    intro i
    cases rest with
    | nil => exact List.chain'_nil
    | cons y rest2 =>
      show List.Chain' _ (⟨x, y, stepRel adj x y, i + 1, nameOf people x, nameOf people y⟩ ::
        buildSteps people adj (y :: rest2) (i + 1))
      rw [List.chain'_cons']
      refine ⟨?_, ih (i + 1)⟩
      intro t ht
      cases rest2 with
      | nil => simp [buildSteps] at ht
      | cons z rest3 =>
        have : ⟨y, z, stepRel adj y z, i + 1 + 1, nameOf people y, nameOf people z⟩ = t := by
          simpa [buildSteps] using ht
        rw [← this]

theorem stepRel_mem (adj : String → List (String × String)) (f t : String)
    (h : ∃ r, (t, r) ∈ adj f) : (t, stepRel adj f t) ∈ adj f := by
  obtain ⟨r, hr⟩ := h
  unfold stepRel
  cases hf : (adj f).find? (fun nr => nr.1 = t) with
  | none =>
    exfalso
    rw [List.find?_eq_none] at hf
    exact hf (t, r) hr (by simp)
  | some nr =>
    have hmem := List.mem_of_find?_eq_some hf
    have hpred := List.find?_some hf
    have h1 : nr.1 = t := by simpa using hpred
    have : (t, nr.2) = nr := by
      rw [← h1]
    rw [this]
    exact hmem

theorem buildSteps_edge (people : List Person) (adj : String → List (String × String)) :
    ∀ (l : List String) (i : Nat),
      List.Chain' (fun a b => ∃ r, (b, r) ∈ adj a) l →
      ∀ s ∈ buildSteps people adj l i,
        (s.next_id, s.relationship_type) ∈ adj s.current_id := by
  intro l
  induction l with
  | nil => intro i _ s hs; cases hs
  | cons x rest ih =>
    intro i hchain s hs
    cases rest with
    | nil => cases hs
    | cons y rest2 =>
      rw [List.chain'_cons] at hchain
      rcases List.mem_cons.mp hs with h | h
      · rw [h]
        exact stepRel_mem adj x y hchain.1
      · exact ih (i + 1) hchain.2 s h

theorem mem_adjacency_iff (edges : List FamilyEdge) (a b r : String) :
    (b, r) ∈ adjacency edges a ↔ (a, b, r) ∈ adjacencyEntries edges := by
  unfold adjacency
  rw [List.mem_filterMap]
  constructor
  · rintro ⟨kv, hkv, hsome⟩
    by_cases h : kv.1 = a
    · rw [if_pos h] at hsome
      have h2 : kv.2 = (b, r) := by injection hsome
      have : kv = (a, b, r) := by
        obtain ⟨k1, k2⟩ := kv
        simp only at h h2
        rw [h, h2]
      rw [← this]
      exact hkv
    · rw [if_neg h] at hsome
      cases hsome
  · intro h
    exact ⟨(a, b, r), h, by simp⟩

theorem mem_adjacencyEntries_iff (edges : List FamilyEdge) (kv : String × String × String) :
    kv ∈ adjacencyEntries edges ↔ ∃ e ∈ edges,
      kv = (e.from_person_id, e.to_person_id, e.relationship_type) ∨
      kv = (e.to_person_id, e.from_person_id, inverseRelOf e.relationship_type) := by
  unfold adjacencyEntries
  rw [List.mem_flatMap]
  constructor
  · rintro ⟨e, he, hmem⟩
    refine ⟨e, he, ?_⟩
    rcases List.mem_cons.mp hmem with h | h
    · exact Or.inl h
    · rw [List.mem_singleton] at h
      exact Or.inr h
  · rintro ⟨e, he, h | h⟩
    · exact ⟨e, he, by rw [h]; exact List.mem_cons_self _ _⟩
    · exact ⟨e, he, by rw [h]; exact List.mem_cons_of_mem _ (List.mem_singleton_self _)⟩

/-- The adjacency dict is symmetric: every edge contributes both directions. -/
theorem adjacency_symm (edges : List FamilyEdge) (a b r : String)
    (h : (b, r) ∈ adjacency edges a) : ∃ r2, (a, r2) ∈ adjacency edges b := by
  rw [mem_adjacency_iff] at h
  rcases (mem_adjacencyEntries_iff edges _).mp h with ⟨e, he, hf | hr⟩
  · have h1 : a = e.from_person_id := congrArg (fun t => t.1) hf
    have h2 : b = e.to_person_id := congrArg (fun t => t.2.1) hf
    refine ⟨inverseRelOf e.relationship_type, ?_⟩
    rw [mem_adjacency_iff, h1, h2]
    exact (mem_adjacencyEntries_iff edges _).mpr ⟨e, he, Or.inr rfl⟩
  · have h1 : a = e.to_person_id := congrArg (fun t => t.1) hr
    have h2 : b = e.from_person_id := congrArg (fun t => t.2.1) hr
    refine ⟨e.relationship_type, ?_⟩
    rw [mem_adjacency_iff, h1, h2]
    exact (mem_adjacencyEntries_iff edges _).mpr ⟨e, he, Or.inl rfl⟩

/-- Walks over the bidirectional adjacency reverse. -/
theorem walk_symm (edges : List FamilyEdge) :
    ∀ {n : Nat} {a b : String}, Walk (adjacency edges) a b n →
      Walk (adjacency edges) b a n := by
  intro n a b hw
  induction hw with
  | refl x => exact Walk.refl x
  | step bmid r h w ih =>
    rcases adjacency_symm edges _ bmid r h with ⟨r2, h2⟩
    exact walk_snoc ih _ r2 h2

theorem head?_dropLast {α : Type} (l : List α) (h : 2 ≤ l.length) :
    l.dropLast.head? = l.head? := by
  cases l with
  | nil => simp at h
  | cons x rest =>
    cases rest with
    | nil => simp at h
    | cons y rest2 => rfl

theorem getLast?_tail_eq {α : Type} (l : List α) (h : 2 ≤ l.length) :
    l.tail.getLast? = l.getLast? := by
  cases l with
  | nil => simp at h
  | cons x rest =>
    cases rest with
    | nil => simp at h
    | cons y rest2 =>
      show (y :: rest2).getLast? = (x :: y :: rest2).getLast?
      rw [List.getLast?_cons_cons]

/-- `graph_find_path` returns `[]` exactly for identical endpoints or when no
walk of at most `max_depth` steps connects the endpoints in the bidirectional
adjacency. -/
theorem graph_find_path_empty_iff (people : List Person) (edges : List FamilyEdge)
    (p1 p2 : String) (max_depth : Nat) :
    graph_find_path people edges p1 p2 max_depth = [] ↔
      p1 = p2 ∨ ∀ m, m ≤ max_depth → ¬ Walk (adjacency edges) p1 p2 m := by
  by_cases hp : p1 = p2
  · simp [graph_find_path, hp]
  · have hcore := graph_find_path_core edges p1 p2 max_depth hp
    unfold graph_find_path
    rw [if_neg hp]
    cases hbfs : bfsAux (adjacency edges) p2 max_depth (2 * edges.length + 2)
        [(p1, [p1])] [p1] with
    | none =>
      constructor
      · intro _
        exact Or.inr (hcore.2 hbfs)
      · intro _
        rfl
    | some f =>
      obtain ⟨hpath, hlen2, hlenN, hmin⟩ := hcore.1 f hbfs
      constructor
      · intro hempty
        exfalso
        have hempty2 : buildSteps people (adjacency edges) f 0 = [] := hempty
        have := buildSteps_length people (adjacency edges) f 0
        rw [hempty2] at this
        simp at this
        omega
      · intro hor
        exfalso
        rcases hor with h | h
        · exact hp h
        · exact h (f.length - 1) hlenN (pathOk_walk hpath)

/-- Structure of a non-empty `graph_find_path` result: it is a chained step
list from `p1` to `p2` along adjacency edges, numbered from depth 1, whose
length is minimal among all connecting walks and within the depth bound. -/
theorem graph_find_path_nonempty_spec (people : List Person) (edges : List FamilyEdge)
    (p1 p2 : String) (max_depth : Nat)
    (h : graph_find_path people edges p1 p2 max_depth ≠ []) :
    ∀ steps, steps = graph_find_path people edges p1 p2 max_depth →
      p1 ≠ p2 ∧ 1 ≤ steps.length ∧ steps.length ≤ max_depth ∧
      Walk (adjacency edges) p1 p2 steps.length ∧
      (∀ m, Walk (adjacency edges) p1 p2 m → steps.length ≤ m) ∧
      (steps.map (fun s => s.current_id)).head? = some p1 ∧
      (steps.map (fun s => s.next_id)).getLast? = some p2 ∧
      List.Chain' (fun s t => s.next_id = t.current_id) steps ∧
      (∀ s ∈ steps, (s.next_id, s.relationship_type) ∈ adjacency edges s.current_id) ∧
      steps.map (fun s => s.depth) = List.range' 1 steps.length := by
  intro steps hsteps
  have hp : p1 ≠ p2 := by
    intro heq
    apply h
    simp [graph_find_path, heq]
  have hcore := graph_find_path_core edges p1 p2 max_depth hp
  cases hbfs : bfsAux (adjacency edges) p2 max_depth (2 * edges.length + 2)
      [(p1, [p1])] [p1] with
  | none =>
    exfalso
    apply h
    unfold graph_find_path
    rw [if_neg hp, hbfs]
  | some f =>
    obtain ⟨hpath, hlen2, hlenN, hmin⟩ := hcore.1 f hbfs
    have hsteps_eq : steps = buildSteps people (adjacency edges) f 0 := by
      rw [hsteps]
      unfold graph_find_path
      rw [if_neg hp, hbfs]
    have hlen : steps.length = f.length - 1 := by
      rw [hsteps_eq, buildSteps_length]
    refine ⟨hp, by omega, by omega, ?_, ?_, ?_, ?_, ?_, ?_, ?_⟩
    · rw [hlen]
      exact pathOk_walk hpath
    · intro m hw
      rw [hlen]
      exact hmin m hw
    · rw [hsteps_eq, buildSteps_map_current, head?_dropLast f hlen2]
      exact hpath.2.1
    · rw [hsteps_eq, buildSteps_map_next, getLast?_tail_eq f hlen2]
      exact hpath.2.2.1
    · rw [hsteps_eq]
      exact buildSteps_chain people (adjacency edges) f 0
    · rw [hsteps_eq]
      exact buildSteps_edge people (adjacency edges) f 0 hpath.2.2.2
    · rw [hsteps_eq, buildSteps_map_depth, ← hlen, hsteps_eq, buildSteps_length]

/-! ## Resolver lemmas: grammar facts, colon-freeness, idempotence. -/

theorem matchPair_snd_sublist (l : List Char) :
    (match l with
      | c :: rest => if isDigitChar c = true then ([c], rest) else ([], l)
      | [] => (([] : List Char), l)).2.Sublist l := by
  cases l with
  | nil => exact List.Sublist.refl []
  | cons c rest =>
    by_cases hd : isDigitChar c = true
    · simp only [hd, if_true]
      exact List.sublist_cons_self c rest
    · simp only [hd, if_false]
      exact List.Sublist.refl _

theorem matchPair_fst_digit (l : List Char) :
    ∀ x ∈ (match l with
      | c :: rest => if isDigitChar c = true then ([c], rest) else ([], l)
      | [] => (([] : List Char), l)).1, isDigitChar x = true := by
  cases l with
  | nil => intro x hx; cases hx
  | cons c rest =>
    by_cases hd : isDigitChar c = true
    · simp only [hd, if_true]
      intro x hx
      rw [List.mem_singleton] at hx
      rw [hx]; exact hd
    · simp only [hd, if_false]
      intro x hx; cases hx

/-- A successful match contains a colon, the book group consists of digits,
whitespace and letters, and the chapter and verse groups are digit runs. -/
theorem matchReference_success_facts (l : List Char) (b ch v : List Char)
    (e : Option (List Char)) (h : matchReference l = some (b, ch, v, e)) :
    ':' ∈ l ∧
    (∀ c ∈ b, isDigitChar c = true ∨ isSpaceChar c = true ∨ isAlphaChar c = true) ∧
    (∀ c ∈ ch, isDigitChar c = true) ∧
    (∀ c ∈ v, isDigitChar c = true) := by
  have hsubX := matchPair_snd_sublist l
  have hfstX := matchPair_fst_digit l
  simp only [matchReference] at h
  split at h
  · cases h
  · split at h
    · cases h
    · split at h
      case _ rest5 heq4 =>
        have hcolon : ':' ∈ l := by
          apply List.Sublist.subset ?_ (show ':' ∈ List.dropWhile isDigitChar
            (List.dropWhile isSpaceChar (List.dropWhile isAlphaChar
              (List.dropWhile isSpaceChar
                (match l with
                  | c :: rest => if isDigitChar c = true then ([c], rest) else ([], l)
                  | [] => (([] : List Char), l)).2))) from ?_)
          · refine List.Sublist.trans (List.dropWhile_sublist _) ?_
            refine List.Sublist.trans (List.dropWhile_sublist _) ?_
            refine List.Sublist.trans (List.dropWhile_sublist _) ?_
            exact List.Sublist.trans (List.dropWhile_sublist _) hsubX
          · rw [heq4]
            exact List.mem_cons_self _ _
        split at h
        · cases h
        · split at h
          · simp only [Option.some.injEq, Prod.mk.injEq] at h
            obtain ⟨hb, hch, hv, he⟩ := h
            refine ⟨hcolon, ?_, ?_, ?_⟩
            · intro c hc
              rw [← hb] at hc
              rcases List.mem_append.mp hc with hc | hc
              · rcases List.mem_append.mp hc with hc | hc
                · exact Or.inl (hfstX c hc)
                · exact Or.inr (Or.inl (List.mem_takeWhile_imp hc))
              · exact Or.inr (Or.inr (List.mem_takeWhile_imp hc))
            · intro c hc
              rw [← hch] at hc
              exact List.mem_takeWhile_imp hc
            · intro c hc
              rw [← hv] at hc
              exact List.mem_takeWhile_imp hc
          · split at h
            · cases h
            · split at h
              · simp only [Option.some.injEq, Prod.mk.injEq] at h
                obtain ⟨hb, hch, hv, he⟩ := h
                refine ⟨hcolon, ?_, ?_, ?_⟩
                · intro c hc
                  rw [← hb] at hc
                  rcases List.mem_append.mp hc with hc | hc
                  · rcases List.mem_append.mp hc with hc | hc
                    · exact Or.inl (hfstX c hc)
                    · exact Or.inr (Or.inl (List.mem_takeWhile_imp hc))
                  · exact Or.inr (Or.inr (List.mem_takeWhile_imp hc))
                · intro c hc
                  rw [← hch] at hc
                  exact List.mem_takeWhile_imp hc
                · intro c hc
                  rw [← hv] at hc
                  exact List.mem_takeWhile_imp hc
              · cases h
          · cases h
      case _ => cases h

theorem digit_ne_colon (c : Char) (h : isDigitChar c = true) : c ≠ ':' := by
  intro heq
  subst heq
  exact absurd h (by decide)

theorem space_ne_colon (c : Char) (h : isSpaceChar c = true) : c ≠ ':' := by
  intro heq
  subst heq
  exact absurd h (by decide)

theorem alpha_ne_colon (c : Char) (h : isAlphaChar c = true) : c ≠ ':' := by
  intro heq
  subst heq
  exact absurd h (by decide)

theorem toLower_ne_colon (c : Char) (hc : c ≠ ':') : c.toLower ≠ ':' := by
  intro heq
  have hn : c.toLower.toNat = 58 := by rw [heq]; rfl
  unfold Char.toLower at hn
  by_cases hr : c.toNat ≥ 65 ∧ c.toNat ≤ 90
  · rw [if_pos hr] at hn
    have hv : (c.toNat + 32).isValidChar := by
      unfold Nat.isValidChar
      left
      omega
    have hofnat : (Char.ofNat (c.toNat + 32)).toNat = c.toNat + 32 := by
      unfold Char.ofNat
      rw [dif_pos hv]
      rfl
    rw [hofnat] at hn
    omega
  · rw [if_neg hr] at hn
    apply hc
    have h2 : c.val.toNat = ((':' : Char).val).toNat := hn
    exact Char.ext (UInt32.toNat.inj h2)

theorem toUpper_ne_colon (c : Char) (hc : c ≠ ':') : c.toUpper ≠ ':' := by
  intro heq
  have hn : c.toUpper.toNat = 58 := by rw [heq]; rfl
  unfold Char.toUpper at hn
  by_cases hr : c.toNat ≥ 97 ∧ c.toNat ≤ 122
  · rw [if_pos hr] at hn
    have hv : (c.toNat - 32).isValidChar := by
      unfold Nat.isValidChar
      left
      omega
    have hofnat : (Char.ofNat (c.toNat - 32)).toNat = c.toNat - 32 := by
      unfold Char.ofNat
      rw [dif_pos hv]
      rfl
    rw [hofnat] at hn
    omega
  · rw [if_neg hr] at hn
    apply hc
    have h2 : c.val.toNat = ((':' : Char).val).toNat := hn
    exact Char.ext (UInt32.toNat.inj h2)

theorem titleStep_ne_colon (prev : Bool) (c : Char) (hc : c ≠ ':') :
    titleStep prev c ≠ ':' := by
  unfold titleStep
  by_cases ha : isAlphaChar c = true
  · rw [if_pos ha]
    cases prev with
    | true => simpa using toLower_ne_colon c hc
    | false => simpa using toUpper_ne_colon c hc
  · rw [if_neg ha]
    exact hc

theorem titleChars_no_colon : ∀ (prev : Bool) (m : List Char),
    (∀ c ∈ m, c ≠ ':') → ':' ∉ titleChars prev m := by
  intro prev m
  induction m generalizing prev with
  | nil => intro _ hx; cases hx
  | cons c rest ih =>
    intro hm hx
    rcases List.mem_cons.mp hx with hx | hx
    · exact titleStep_ne_colon prev c (hm c (List.mem_cons_self _ _)) hx.symm
    · exact ih (isAlphaChar c) (fun d hd => hm d (List.mem_cons_of_mem c hd)) hx

theorem lookupStr_mem : ∀ (M : List (String × String)) (k v : String),
    lookupStr M k = some v → (k, v) ∈ M := by
  intro M
  induction M with
  | nil => intro k v h; cases h
  | cons kv rest ih =>
    intro k v h
    obtain ⟨k0, v0⟩ := kv
    unfold lookupStr at h
    by_cases he : k0 = k
    · rw [if_pos he] at h
      have : v0 = v := by injection h
      rw [← this, he]
      exact List.mem_cons_self _ _
    · rw [if_neg he] at h
      exact List.mem_cons_of_mem _ (ih k v h)

/-- Every abbreviation in `book_map` is colon-free. -/
theorem book_map_values_no_colon : ∀ kv ∈ book_map, ':' ∉ kv.2.data := by decide

/-- A character list without a colon never matches the citation grammar. -/
theorem matchReference_none_of_no_colon (l : List Char) (h : ':' ∉ l) :
    matchReference l = none := by
  cases hm : matchReference l with
  | none => rfl
  | some q =>
    obtain ⟨b, ch, v, e⟩ := q
    exact absurd (matchReference_success_facts l b ch v e hm).1 h

theorem mem_stripChars_imp (l : List Char) (x : Char) (h : x ∈ stripChars l) : x ∈ l := by
  unfold stripChars at h
  rw [List.mem_reverse] at h
  have h2 := (List.dropWhile_sublist isSpaceChar).subset h
  rw [List.mem_reverse] at h2
  exact (List.dropWhile_sublist isSpaceChar).subset h2

/-- On a successful match, the built key is colon-free. -/
theorem normalizeChars_key_no_colon (r : List Char) (b ch v : List Char)
    (e : Option (List Char))
    (h : matchReference (stripChars r) = some (b, ch, v, e)) :
    ':' ∉ normalizeChars r := by
  obtain ⟨-, hbchars, hchchars, hvchars⟩ :=
    matchReference_success_facts (stripChars r) b ch v e h
  intro hx
  have hkey : normalizeChars r =
      (match lookupStr book_map (String.mk (stripChars (lowerChars b))) with
        | some a => a.data
        | none => titleChars false (b.take 3)) ++ '.' :: ch ++ '.' :: v := by
    unfold normalizeChars
    rw [h]
  rw [hkey] at hx
  cases hlook : lookupStr book_map (String.mk (stripChars (lowerChars b))) with
  | some a =>
    rw [hlook] at hx
    simp only [List.mem_append, List.mem_cons, or_assoc] at hx
    rcases hx with hx | hx | hx | hx | hx
    · exact book_map_values_no_colon _ (lookupStr_mem book_map _ a hlook) hx
    · exact absurd hx (by decide)
    · exact digit_ne_colon _ (hchchars _ hx) rfl
    · exact absurd hx (by decide)
    · exact digit_ne_colon _ (hvchars _ hx) rfl
  | none =>
    rw [hlook] at hx
    simp only [List.mem_append, List.mem_cons, or_assoc] at hx
    rcases hx with hx | hx | hx | hx | hx
    · refine titleChars_no_colon false (b.take 3) ?_ hx
      intro c hc
      have hcb : c ∈ b := (List.take_sublist 3 b).subset hc
      rcases hbchars c hcb with hd | hs | ha
      · exact digit_ne_colon c hd
      · exact space_ne_colon c hs
      · exact alpha_ne_colon c ha
    · exact absurd hx (by decide)
    · exact digit_ne_colon _ (hchchars _ hx) rfl
    · exact absurd hx (by decide)
    · exact digit_ne_colon _ (hvchars _ hx) rfl

/-- A non-matching input is returned unchanged. -/
theorem normalizeChars_of_none (x : List Char)
    (h : matchReference (stripChars x) = none) : normalizeChars x = x := by
  unfold normalizeChars
  rw [h]

/-- `normalize` applied twice is `normalize` applied once, character-level. -/
theorem normalizeChars_idem (r : List Char) :
    normalizeChars (normalizeChars r) = normalizeChars r := by
  cases h : matchReference (stripChars r) with
  | none =>
    rw [normalizeChars_of_none r h, normalizeChars_of_none r h]
  | some q =>
    obtain ⟨b, ch, v, e⟩ := q
    have hnc : ':' ∉ normalizeChars r := normalizeChars_key_no_colon r b ch v e h
    have hnc2 : ':' ∉ stripChars (normalizeChars r) :=
      fun hx => hnc (mem_stripChars_imp _ _ hx)
    exact normalizeChars_of_none _ (matchReference_none_of_no_colon _ hnc2)

/-! ## Theographic translation lemmas (for the mention queries). -/

theorem splitDotsAux_ne_nil (l : List Char) : ∀ acc, splitDotsAux l acc ≠ [] := by
  induction l with
  | nil => intro acc h; cases h
  | cons c rest ih =>
    intro acc
    unfold splitDotsAux
    by_cases hc : c = '.'
    · rw [if_pos hc]
      intro h; cases h
    · rw [if_neg hc]
      exact ih (c :: acc)

theorem splitDotsAux_pieces_dotfree (l : List Char) :
    ∀ acc, '.' ∉ acc → ∀ p ∈ splitDotsAux l acc, '.' ∉ p := by
  induction l with
  | nil =>
    intro acc hacc p hp
    unfold splitDotsAux at hp
    rw [List.mem_singleton] at hp
    rw [hp, List.mem_reverse]
    exact hacc
  | cons c rest ih =>
    intro acc hacc p hp
    unfold splitDotsAux at hp
    by_cases hc : c = '.'
    · rw [if_pos hc] at hp
      rcases List.mem_cons.mp hp with hp | hp
      · rw [hp, List.mem_reverse]; exact hacc
      · exact ih [] (by simp) p hp
    · rw [if_neg hc] at hp
      refine ih (c :: acc) ?_ p hp
      intro hmem
      rcases List.mem_cons.mp hmem with h | h
      · exact hc h.symm
      · exact hacc h

/-- Two dot-free prefixes before a literal dot agree. -/
theorem dotfree_prefix_eq : ∀ (A B X Y : List Char), '.' ∉ A → '.' ∉ B →
    A ++ '.' :: X = B ++ '.' :: Y → A = B := by
  intro A
  induction A with
  | nil =>
    intro B X Y _ hB h
    cases B with
    | nil => rfl
    | cons b0 B2 =>
      exfalso
      have hb0 : b0 = '.' := by
        have := congrArg (fun t => t.head?) h
        simpa using this.symm
      exact hB (hb0 ▸ List.mem_cons_self b0 B2)
  | cons a0 A2 ih =>
    intro B X Y hA hB h
    cases B with
    | nil =>
      exfalso
      have ha0 : a0 = '.' := by
        have := congrArg (fun t => t.head?) h
        simpa using this
      exact hA (ha0 ▸ List.mem_cons_self a0 A2)
    | cons b0 B2 =>
      have hhead : a0 = b0 := by
        have := congrArg (fun t => t.head?) h
        simpa using this
      have htail : A2 ++ '.' :: X = B2 ++ '.' :: Y := by
        have := congrArg (fun t => t.tail) h
        simpa using this
      rw [hhead, ih B2 X Y (fun hm => hA (List.mem_cons_of_mem a0 hm))
        (fun hm => hB (List.mem_cons_of_mem b0 hm)) htail]

/-- All Theographic map keys are dot-free. -/
theorem theographic_keys_dotfree : ∀ kv ∈ _THEOGRAPHIC_BOOK_MAP, '.' ∉ kv.1.data := by
  decide

/-- All Theographic map values are dot-free. -/
theorem theographic_values_dotfree : ∀ kv ∈ _THEOGRAPHIC_BOOK_MAP, '.' ∉ kv.2.data := by
  decide

/-- No Theographic map value coincides with any key: the translation never
reproduces an untranslated 3-letter code. -/
theorem theographic_value_ne_key :
    ∀ kv1 ∈ _THEOGRAPHIC_BOOK_MAP, ∀ kv2 ∈ _THEOGRAPHIC_BOOK_MAP, kv1.2 ≠ kv2.1 := by
  decide

/-- `_to_theographic_ref` never produces a reference whose book part is a
Theographic map key: a ref stored under an untranslated code can never equal
the looked-up key of any verse-level query. -/
theorem to_theographic_ref_ne_key (k tv : String)
    (hk : lookupStr _THEOGRAPHIC_BOOK_MAP k = some tv) (t : List Char) (ref : String) :
    _to_theographic_ref ref ≠ String.mk (k.data ++ '.' :: t) := by
  intro heq
  have hkmem := lookupStr_mem _THEOGRAPHIC_BOOK_MAP k tv hk
  have hkdf : '.' ∉ k.data := theographic_keys_dotfree (k, tv) hkmem
  unfold _to_theographic_ref at heq
  cases hsplit : splitDots ref.data with
  | nil => exact splitDotsAux_ne_nil ref.data [] hsplit
  | cons p0 rest =>
    rw [hsplit] at heq
    have hp0df : '.' ∉ p0 := by
      have := splitDotsAux_pieces_dotfree ref.data [] (by simp) p0
      apply this
      rw [show splitDotsAux ref.data [] = splitDots ref.data from rfl, hsplit]
      exact List.mem_cons_self _ _
    have hdata := congrArg String.data heq
    simp only [] at hdata
    cases hlook : lookupStr _THEOGRAPHIC_BOOK_MAP (String.mk p0) with
    | some v2 =>
      rw [hlook] at hdata
      have hv2mem := lookupStr_mem _THEOGRAPHIC_BOOK_MAP (String.mk p0) v2 hlook
      have hv2df : '.' ∉ v2.data := theographic_values_dotfree _ hv2mem
      cases rest with
      | nil =>
        have : '.' ∈ v2.data := by
          rw [show joinDots [v2.data] = v2.data from rfl] at hdata
          rw [hdata]
          exact List.mem_append_right _ (List.mem_cons_self _ _)
        exact hv2df this
      | cons r1 rest2 =>
        have hjoin : joinDots (v2.data :: r1 :: rest2) =
            v2.data ++ '.' :: joinDots (r1 :: rest2) := rfl
        rw [hjoin] at hdata
        have := dotfree_prefix_eq v2.data k.data _ _ hv2df hkdf hdata
        have hv2k : v2 = k := by
          apply congrArg String.mk at this
          simpa using this
        exact theographic_value_ne_key _ hv2mem _ hkmem (by rw [hv2k])
    | none =>
      rw [hlook] at hdata
      cases rest with
      | nil =>
        have : '.' ∈ p0 := by
          rw [show joinDots [p0] = p0 from rfl] at hdata
          rw [hdata]
          exact List.mem_append_right _ (List.mem_cons_self _ _)
        exact hp0df this
      | cons r1 rest2 =>
        have hjoin : joinDots (p0 :: r1 :: rest2) = p0 ++ '.' :: joinDots (r1 :: rest2) := rfl
        rw [hjoin] at hdata
        have hp0k := dotfree_prefix_eq p0 k.data _ _ hp0df hkdf hdata
        rw [show k = String.mk k.data from rfl, ← hp0k] at hk
        rw [hk] at hlook
        cases hlook

theorem toLower_eq_of_out_of_range (c d : Char) (h : c.toLower = d)
    (hd : d.toNat < 97 ∨ 122 < d.toNat) : c = d := by
  unfold Char.toLower at h
  by_cases hr : c.toNat ≥ 65 ∧ c.toNat ≤ 90
  · exfalso
    rw [if_pos hr] at h
    have hv : (c.toNat + 32).isValidChar := by
      unfold Nat.isValidChar
      left
      omega
    have hofnat : (Char.ofNat (c.toNat + 32)).toNat = c.toNat + 32 := by
      unfold Char.ofNat
      rw [dif_pos hv]
      rfl
    have := congrArg Char.toNat h
    rw [hofnat] at this
    omega
  · rw [if_neg hr] at h
    exact h

/-- A plain (non-wildcard) pattern character consumes exactly one text
character, case-insensitively. -/
theorem sqlLike_cons_plain (p : Char) (ps s : List Char) (h1 : p ≠ '%') (h2 : p ≠ '_') :
    sqlLike (p :: ps) s =
      (match s with
       | [] => false
       | c :: s2 => (p.toLower = c.toLower) && sqlLike ps s2) := by
  rw [sqlLike.eq_def]
  split
  · rename_i hx; simp at hx
  · rename_i hx; cases hx; exact absurd rfl h1
  · rename_i hx; cases hx; exact absurd rfl h2
  · rename_i hne1 hne2 hx
    cases hx
    rfl

/-- A wildcard-free pattern segment followed by `psuffix` matches the text
exactly when a length-equal case-insensitive prefix of the text matches it
and the rest matches `psuffix`. -/
theorem sqlLike_literal_split : ∀ (P psuffix text : List Char),
    (∀ c ∈ P, c ≠ '%' ∧ c ≠ '_') → sqlLike (P ++ psuffix) text = true →
    ∃ t1 t2, text = t1 ++ t2 ∧ litEq P t1 = true ∧ sqlLike psuffix t2 = true := by
  intro P
  induction P with
  | nil =>
    intro psuffix text _ h
    exact ⟨[], text, rfl, rfl, h⟩
  | cons p P2 ih =>
    intro psuffix text hwf h
    rw [List.cons_append, sqlLike_cons_plain p (P2 ++ psuffix) text
      (hwf p (List.mem_cons_self _ _)).1 (hwf p (List.mem_cons_self _ _)).2] at h
    cases text with
    | nil => cases h
    | cons c t2 =>
      simp only [Bool.and_eq_true] at h
      rcases ih psuffix t2 (fun d hd => hwf d (List.mem_cons_of_mem p hd)) h.2 with
        ⟨t1, t3, hte, hlit, hsuf⟩
      refine ⟨c :: t1, t3, by rw [hte]; rfl, ?_, hsuf⟩
      show (decide (p.toLower = c.toLower) && litEq P2 t1) = true
      rw [Bool.and_eq_true]
      exact ⟨h.1, hlit⟩

/-- A dot-free run `A` followed by a literal dot cannot case-insensitively
match a prefix of `B ++ '.' :: tail` when `A` and `B` differ after
lowercasing: the first dot positions disagree. -/
theorem lit_dot_mismatch : ∀ (A B t1 rest tail : List Char),
    '.' ∉ A → '.' ∉ B → lowerChars A ≠ lowerChars B →
    litEq (A ++ ['.']) t1 = true → t1 ++ rest = B ++ '.' :: tail → False := by
  intro A
  induction A with
  | nil =>
    intro B t1 rest tail _ hB hne hlit heq
    cases t1 with
    | nil => simp [litEq] at hlit
    | cons c t1' =>
      cases t1' with
      | nil =>
        have hcl : ('.' : Char).toLower = c.toLower := by
          simpa [litEq] using hlit
        have hc : c = '.' := by
          apply toLower_eq_of_out_of_range c '.' ?_ (by decide)
          rw [← hcl]
          rfl
        subst hc
        cases B with
        | nil => exact hne rfl
        | cons b0 B' =>
          have hb0 : '.' = b0 := by
            have := congrArg (fun t => t.head?) heq
            simpa using this
          exact hB (hb0 ▸ List.mem_cons_self b0 B')
      | cons d t1'' => simp [litEq] at hlit
  | cons a0 A' ih =>
    intro B t1 rest tail hA hB hne hlit heq
    cases t1 with
    | nil => simp [litEq] at hlit
    | cons c t1' =>
      have hlit2 : a0.toLower = c.toLower ∧ litEq (A' ++ ['.']) t1' = true := by
        simpa only [List.cons_append, litEq, Bool.and_eq_true, decide_eq_true_eq] using hlit
      cases B with
      | nil =>
        have hc : c = '.' := by
          have := congrArg (fun t => t.head?) heq
          simpa using this
        have ha0 : a0 = '.' := by
          apply toLower_eq_of_out_of_range a0 '.' ?_ (by decide)
          rw [hlit2.1, hc]
          rfl
        exact hA (ha0 ▸ List.mem_cons_self a0 A')
      | cons b0 B' =>
        have hcb : c = b0 := by
          have := congrArg (fun t => t.head?) heq
          simpa using this
        have htl : t1' ++ rest = B' ++ '.' :: tail := by
          have := congrArg (fun t => t.tail) heq
          simpa using this
        refine ih B' t1' rest tail (fun hm => hA (List.mem_cons_of_mem a0 hm))
          (fun hm => hB (List.mem_cons_of_mem b0 hm)) ?_ hlit2.2 htl
        intro hlow
        apply hne
        show a0.toLower :: lowerChars A' = b0.toLower :: lowerChars B'
        rw [hlow, hlit2.1, hcb]

/-- No Theographic value case-insensitively equals any key. -/
theorem theographic_value_caseless_ne_key :
    ∀ kv1 ∈ _THEOGRAPHIC_BOOK_MAP, ∀ kv2 ∈ _THEOGRAPHIC_BOOK_MAP,
      lowerChars kv1.2.data ≠ lowerChars kv2.1.data := by
  decide

/-- No Theographic value contains a LIKE wildcard. -/
theorem theographic_values_no_wildcard :
    ∀ kv ∈ _THEOGRAPHIC_BOOK_MAP, ∀ c ∈ kv.2.data, c ≠ '%' ∧ c ≠ '_' := by
  decide

/-- The chapter-level LIKE pattern built from a translated book code never
matches a reference stored under the untranslated code. -/
theorem chapter_pattern_no_match (k tv : String)
    (hk : lookupStr _THEOGRAPHIC_BOOK_MAP k = some tv) (chapter : Nat) (t : List Char) :
    sqlLike (tv ++ "." ++ toString chapter ++ ".%").data (k.data ++ '.' :: t) = false := by
  have hkmem := lookupStr_mem _THEOGRAPHIC_BOOK_MAP k tv hk
  by_contra hlike
  rw [Bool.not_eq_false] at hlike
  have hdata : (tv ++ "." ++ toString chapter ++ ".%").data =
      (tv.data ++ ['.']) ++ ((toString chapter).data ++ ['.', '%']) := by
    simp [String.data_append]
  rw [hdata] at hlike
  have hwf : ∀ c ∈ tv.data ++ ['.'], c ≠ '%' ∧ c ≠ '_' := by
    intro c hc
    rcases List.mem_append.mp hc with hc | hc
    · exact theographic_values_no_wildcard _ hkmem c hc
    · rw [List.mem_singleton] at hc
      rw [hc]
      exact ⟨by decide, by decide⟩
  rcases sqlLike_literal_split (tv.data ++ ['.']) _ _ hwf hlike with ⟨t1, t2, hsplit, hlit, -⟩
  exact lit_dot_mismatch tv.data k.data t1 t2 t
    (theographic_values_dotfree _ hkmem) (theographic_keys_dotfree _ hkmem)
    (theographic_value_caseless_ne_key _ hkmem _ hkmem) hlit hsplit.symm

/-- A mention stored under an untranslated map key is invisible to both the
verse-level and the chapter-level query: the verse query's equality test never
holds, the chapter query's LIKE never matches, and both queries over any
mention table consisting of such rows return three empty buckets. -/
theorem untranslated_key_unreachable (k tv : String)
    (hk : lookupStr _THEOGRAPHIC_BOOK_MAP k = some tv)
    (mentions : List VerseMention)
    (hm : ∀ vm ∈ mentions, ∃ t : List Char, vm.verse_ref = String.mk (k.data ++ '.' :: t)) :
    (∀ vm ∈ mentions, ∀ ref : String, vm.verse_ref ≠ _to_theographic_ref ref) ∧
    (∀ (people : List Person) (places : List Place) (events : List Event) (ref : String),
      graph_get_verse_entities people places events mentions ref = ⟨[], [], []⟩) ∧
    (∀ (people : List Person) (places : List Place) (events : List Event) (chapter : Nat),
      graph_get_chapter_entities people places events mentions k chapter = ⟨[], [], []⟩) := by
  have hne : ∀ vm ∈ mentions, ∀ ref : String, vm.verse_ref ≠ _to_theographic_ref ref := by
    intro vm hvm ref heq
    rcases hm vm hvm with ⟨t, ht⟩
    rw [ht] at heq
    exact to_theographic_ref_ne_key k tv hk t ref heq.symm
  refine ⟨hne, ?_, ?_⟩
  · intro people places events ref
    unfold graph_get_verse_entities
    have hfilter : mentions.filter (fun vm =>
        vm.verse_ref = _to_theographic_ref ref) = [] := by
      rw [List.filter_eq_nil_iff]
      intro vm hvm
      simpa using hne vm hvm ref
    rw [hfilter]
    rfl
  · intro people places events chapter
    have hbook : (match lookupStr _THEOGRAPHIC_BOOK_MAP k with
        | some v => v
        | none => k) = tv := by rw [hk]
    have heq : graph_get_chapter_entities people places events mentions k chapter =
        bucketize (dedupRows ((mentions.filter (fun vm =>
          sqlLike (tv ++ "." ++ toString chapter ++ ".%").data vm.verse_ref.data)).map
            (fun vm => ⟨vm.entity_type, vm.entity_id,
              entity_name_of people places events vm⟩)) []) := by
      unfold graph_get_chapter_entities
      rw [hbook]
    have hfilter : mentions.filter (fun vm =>
        sqlLike (tv ++ "." ++ toString chapter ++ ".%").data vm.verse_ref.data) = [] := by
      rw [List.filter_eq_nil_iff]
      intro vm hvm
      rcases hm vm hvm with ⟨t, ht⟩
      rw [ht]
      simp only [Bool.not_eq_true]
      exact chapter_pattern_no_match k tv hk chapter t
    rw [heq, hfilter]
    rfl

theorem countP_flatMap {α β : Type} (l : List α) (f : α → List β) (P : β → Bool) :
    (l.flatMap f).countP P = (l.map (fun x => (f x).countP P)).sum := by
  induction l with
  | nil => rfl
  | cons a rest ih =>
    rw [List.flatMap_cons, List.countP_append, List.map_cons, List.sum_cons, ih]

theorem sum_map_eq_single (c : Nat → Nat) (g : Nat) :
    ∀ L : List Nat, L.Nodup → (∀ i ∈ L, i ≠ g → c i = 0) → g ∈ L →
      (L.map c).sum = c g := by
  intro L
  induction L with
  | nil => intro _ _ hg; cases hg
  | cons a rest ih =>
    intro hnd hz hg
    rw [List.nodup_cons] at hnd
    rw [List.map_cons, List.sum_cons]
    rcases List.mem_cons.mp hg with hga | hga
    · subst hga
      have hrest : (rest.map c).sum = 0 := by
        rw [List.sum_eq_zero_iff]
        intro x hx
        rcases List.mem_map.mp hx with ⟨i, hi, hxi⟩
        rw [← hxi]
        refine hz i (List.mem_cons_of_mem g hi) ?_
        intro he
        rw [he] at hi
        exact hnd.1 hi
      rw [hrest]
      omega
    · have ha : c a = 0 := by
        refine hz a (List.mem_cons_self _ _) ?_
        intro he
        rw [he] at hnd
        exact hnd.1 hga
      rw [ha, ih hnd.2 (fun i hi hig => hz i (List.mem_cons_of_mem a hi) hig) hga]
      omega

theorem sum_map_eq_zero (c : Nat → Nat) :
    ∀ L : List Nat, (∀ i ∈ L, c i = 0) → (L.map c).sum = 0 := by
  intro L hz
  rw [List.sum_eq_zero_iff]
  intro x hx
  rcases List.mem_map.mp hx with ⟨i, hi, hxi⟩
  rw [← hxi]
  exact hz i hi

/-- The level past the generation bound is empty. -/
theorem iterStep_last_nil (people : List Person) (edges : List FamilyEdge)
    (max_generations : Nat) (srcOf dstOf : FamilyEdge → String) (pid : String)
    (p0 : Person) (hnodup : (people.map Person.id).Nodup) (hp0 : p0 ∈ people)
    (hpid : p0.id = pid)
    (hclosed : ∀ e ∈ edges, ∃ p ∈ people, p.id = dstOf e) :
    iterStep (familyStep people edges max_generations srcOf dstOf)
      (max_generations + 1) (cteBase people pid) = [] := by
  show (iterStep (familyStep people edges max_generations srcOf dstOf)
      max_generations (cteBase people pid)).flatMap _ = []
  rw [iterStep_eq_pathRows people edges max_generations srcOf dstOf pid p0 hnodup hp0 hpid
    hclosed max_generations (Nat.le_refl _)]
  apply flatMap_familyStep_nil
  intro r hr
  rcases List.mem_map.mp hr with ⟨path, _, hpr⟩
  rw [← hpr]
  exact Nat.le_refl _

/-- Multiplicity of the rows for person `q` at generation `g` with
relationship `rel`: one row per length-`g` parent walk from the queried
person ending at `q` whose last edge has type `rel`. The generic count
theorem behind both `graph_get_ancestors` and `graph_get_descendants`. -/
theorem cte_count_paths (people : List Person) (edges : List FamilyEdge)
    (max_generations : Nat) (srcOf dstOf : FamilyEdge → String) (pid : String)
    (p0 : Person) (hnodup : (people.map Person.id).Nodup) (hp0 : p0 ∈ people)
    (hpid : p0.id = pid)
    (hclosed : ∀ e ∈ edges, ∃ p ∈ people, p.id = dstOf e)
    (q rel : String) (g : Nat) (hg : g ≤ max_generations) :
    (cteBase people pid ++
      cteLevels (familyStep people edges max_generations srcOf dstOf)
        (max_generations + 1) (cteBase people pid)).countP
      (fun r => r.id = q ∧ r.generation = g ∧ r.relationship = rel) =
    ((familyPaths edges srcOf dstOf pid g).countP
      (fun path => pathEnd dstOf pid path = q ∧ lastRel path = rel)) := by
  have hlevel := iterStep_eq_pathRows people edges max_generations srcOf dstOf pid p0
    hnodup hp0 hpid hclosed
  have hcount_level : ∀ i, i ≤ max_generations →
      (iterStep (familyStep people edges max_generations srcOf dstOf) i
        (cteBase people pid)).countP
        (fun r => r.id = q ∧ r.generation = g ∧ r.relationship = rel) =
      (if i = g then (familyPaths edges srcOf dstOf pid i).countP
        (fun path => pathEnd dstOf pid path = q ∧ lastRel path = rel) else 0) := by
    intro i hi
    rw [hlevel i hi, List.countP_map]
    by_cases hig : i = g
    · rw [if_pos hig]
      apply List.countP_congr
      intro path _
      show (decide ((pathRow people dstOf pid i path).id = q ∧
        (pathRow people dstOf pid i path).generation = g ∧
        (pathRow people dstOf pid i path).relationship = rel)) = _ ↔ _
      have hid : (pathRow people dstOf pid i path).id = pathEnd dstOf pid path :=
        personAt_id people _
      constructor
      · intro hh
        have hcc := of_decide_eq_true hh
        apply decide_eq_true
        refine ⟨?_, hcc.2.2⟩
        rw [← hid]
        exact hcc.1
      · intro hh
        have hcc := of_decide_eq_true hh
        apply decide_eq_true
        refine ⟨?_, ?_, hcc.2⟩
        · rw [hid]
          exact hcc.1
        · show i = g
          exact hig
    · rw [if_neg hig]
      rw [List.countP_eq_zero]
      intro path _
      simp only [Function.comp_apply, decide_eq_true_eq, not_and]
      intro _ hb
      exact absurd hb hig
  rw [List.countP_append, cteLevels_decomp]
  rw [countP_flatMap]
  by_cases hg0 : g = 0
  · have hz : ((List.range (max_generations + 1)).map (fun i =>
        (iterStep (familyStep people edges max_generations srcOf dstOf) (i + 1)
          (cteBase people pid)).countP
          (fun r => r.id = q ∧ r.generation = g ∧ r.relationship = rel))).sum = 0 := by
      apply sum_map_eq_zero
      intro i hi
      rw [List.mem_range] at hi
      by_cases hlast : i + 1 = max_generations + 1
      · rw [hlast, iterStep_last_nil people edges max_generations srcOf dstOf pid p0 hnodup
          hp0 hpid hclosed]
        rfl
      · have hile : i + 1 ≤ max_generations := by omega
        rw [hcount_level (i + 1) hile, if_neg (by omega)]
    rw [hz]
    have h0 := hcount_level 0 (Nat.zero_le _)
    rw [if_pos hg0.symm] at h0
    show (cteBase people pid).countP _ + 0 = _
    rw [Nat.add_zero]
    have hbase : iterStep (familyStep people edges max_generations srcOf dstOf) 0
        (cteBase people pid) = cteBase people pid := rfl
    rw [hbase] at h0
    rw [h0, hg0]
  · have hz0 : (cteBase people pid).countP
        (fun r => r.id = q ∧ r.generation = g ∧ r.relationship = rel) = 0 := by
      rw [List.countP_eq_zero]
      intro r hr
      rcases List.mem_map.mp hr with ⟨p, _, hpr⟩
      simp only [decide_eq_true_eq, not_and]
      intro _ hb
      exfalso
      rw [← hpr] at hb
      have hb2 : (0 : Nat) = g := hb
      omega
    rw [hz0, Nat.zero_add]
    have hsum := sum_map_eq_single (fun i =>
        (iterStep (familyStep people edges max_generations srcOf dstOf) i
          (cteBase people pid)).countP
          (fun r => r.id = q ∧ r.generation = g ∧ r.relationship = rel)) g
      ((List.range (max_generations + 1)).map (fun i => i + 1)) ?_ ?_ ?_
    · rw [List.map_map] at hsum
      have hfinal := hcount_level g hg
      rw [if_pos rfl] at hfinal
      exact hsum.trans hfinal
    · refine List.Nodup.map ?_ (List.nodup_range _)
      intro a b hab
      have hab2 : a + 1 = b + 1 := hab
      omega
    · intro i hi hig
      rcases List.mem_map.mp hi with ⟨j, hj, hji⟩
      rw [List.mem_range] at hj
      have hji2 : j + 1 = i := hji
      rw [← hji2]
      by_cases hlast : j + 1 = max_generations + 1
      · show (iterStep (familyStep people edges max_generations srcOf dstOf) (j + 1)
          (cteBase people pid)).countP
          (fun r => r.id = q ∧ r.generation = g ∧ r.relationship = rel) = 0
        rw [hlast, iterStep_last_nil people edges max_generations srcOf dstOf pid p0 hnodup
          hp0 hpid hclosed]
        rfl
      · show (iterStep (familyStep people edges max_generations srcOf dstOf) (j + 1)
          (cteBase people pid)).countP
          (fun r => r.id = q ∧ r.generation = g ∧ r.relationship = rel) = 0
        rw [hcount_level (j + 1) (by omega), if_neg (by rw [hji2]; exact hig)]
    · rw [List.mem_map]
      refine ⟨g - 1, by rw [List.mem_range]; omega, ?_⟩
      show g - 1 + 1 = g
      omega

/-- When nothing satisfies the WHERE clause, `graph_find_person` returns the
empty list. -/
theorem graph_find_person_of_no_match (people : List Person) (edges : List FamilyEdge)
    (name : String) (h : ∀ p ∈ people, person_matches name p = false) :
    graph_find_person people edges name = [] := by
  unfold graph_find_person
  have hfilter : people.filter (person_matches name) = [] := by
    rw [List.filter_eq_nil_iff]
    intro p hp
    rw [h p hp]
    simp
  rw [hfilter, List.mergeSort_nil]
  rfl

/-- When no mention row equals the translated reference, the verse query
returns three empty buckets. -/
theorem graph_get_verse_entities_of_no_match (people : List Person) (places : List Place)
    (events : List Event) (mentions : List VerseMention) (verse_ref : String)
    (h : ∀ vm ∈ mentions, vm.verse_ref ≠ _to_theographic_ref verse_ref) :
    graph_get_verse_entities people places events mentions verse_ref = ⟨[], [], []⟩ := by
  unfold graph_get_verse_entities
  have hfilter : mentions.filter
      (fun vm => vm.verse_ref = _to_theographic_ref verse_ref) = [] := by
    rw [List.filter_eq_nil_iff]
    intro vm hvm
    simpa using h vm hvm
  rw [hfilter]
  rfl

/-- The chapter query, with its two `let`s folded into `chapterPattern`. -/
theorem graph_get_chapter_entities_eq (people : List Person) (places : List Place)
    (events : List Event) (mentions : List VerseMention) (book : String) (chapter : Nat) :
    graph_get_chapter_entities people places events mentions book chapter =
      bucketize
        (dedupRows
          ((mentions.filter (fun vm =>
            sqlLike (chapterPattern book chapter).data vm.verse_ref.data)).map
            (fun vm => ⟨vm.entity_type, vm.entity_id,
              entity_name_of people places events vm⟩))
          []) := rfl

/-- `SELECT DISTINCT` keeps exactly the rows of the input not already seen. -/
theorem mem_dedupRows (a : EntityRow) : ∀ (l seen : List EntityRow),
    a ∈ dedupRows l seen ↔ a ∈ l ∧ a ∉ seen := by
  intro l
  induction l with
  | nil => intro seen; simp [dedupRows]
  | cons r rest ih =>
    intro seen
    unfold dedupRows
    by_cases hr : r ∈ seen
    · rw [if_pos hr, ih seen]
      constructor
      · rintro ⟨h1, h2⟩
        exact ⟨List.mem_cons_of_mem r h1, h2⟩
      · rintro ⟨h1, h2⟩
        rcases List.mem_cons.mp h1 with rfl | h1
        · exact absurd hr h2
        · exact ⟨h1, h2⟩
    · rw [if_neg hr]
      constructor
      · intro h
        rcases List.mem_cons.mp h with rfl | h
        · exact ⟨List.mem_cons_self _ _, hr⟩
        · rcases (ih (seen ++ [r])).mp h with ⟨h1, h2⟩
          rw [List.mem_append] at h2
          push_neg at h2
          exact ⟨List.mem_cons_of_mem r h1, h2.1⟩
      · rintro ⟨h1, h2⟩
        rcases List.mem_cons.mp h1 with rfl | h1
        · exact List.mem_cons_self _ _
        · by_cases har : a = r
          · subst har
            exact List.mem_cons_self _ _
          · apply List.mem_cons_of_mem
            apply (ih (seen ++ [r])).mpr
            refine ⟨h1, ?_⟩
            rw [List.mem_append]
            push_neg
            exact ⟨h2, by simpa using har⟩

/-- When no mention row matches the chapter LIKE pattern, the chapter query
returns three empty buckets. -/
theorem graph_get_chapter_entities_of_no_match (people : List Person) (places : List Place)
    (events : List Event) (mentions : List VerseMention) (book : String) (chapter : Nat)
    (h : ∀ vm ∈ mentions,
      sqlLike (chapterPattern book chapter).data vm.verse_ref.data = false) :
    graph_get_chapter_entities people places events mentions book chapter =
      ⟨[], [], []⟩ := by
  rw [graph_get_chapter_entities_eq]
  have hfilter : mentions.filter (fun vm =>
      sqlLike (chapterPattern book chapter).data vm.verse_ref.data) = [] := by
    rw [List.filter_eq_nil_iff]
    intro vm hvm
    rw [h vm hvm]
    simp
  rw [hfilter]
  rfl

/-- A row lands in the bucket named by its `entity_type`. -/
theorem mem_bucketize (rows : List EntityRow) (r : EntityRow) (h : r ∈ rows) :
    (r.entity_type = "person" → r ∈ (bucketize rows).people) ∧
    (r.entity_type = "place" → r ∈ (bucketize rows).places) ∧
    (r.entity_type = "event" → r ∈ (bucketize rows).events) :=
  ⟨fun ht => List.mem_filter.mpr ⟨h, by simp [ht]⟩,
   fun ht => List.mem_filter.mpr ⟨h, by simp [ht]⟩,
   fun ht => List.mem_filter.mpr ⟨h, by simp [ht]⟩⟩

/-- When the mention is place-typed, the COALESCE name is exactly the
(optional) name found in the places table. -/
theorem entity_name_of_place (people : List Person) (places : List Place)
    (events : List Event) (vm : VerseMention) (htype : vm.entity_type = "place") :
    entity_name_of people places events vm =
      (places.find? (fun pl => pl.id = vm.entity_id)).map Place.name := by
  unfold entity_name_of
  rw [if_neg (by rw [htype]; decide), if_pos htype, if_neg (by rw [htype]; decide)]
  cases places.find? (fun pl => pl.id = vm.entity_id) <;> rfl

/-- When the mention is event-typed, the COALESCE name is exactly the
(optional) title found in the events table. -/
theorem entity_name_of_event (people : List Person) (places : List Place)
    (events : List Event) (vm : VerseMention) (htype : vm.entity_type = "event") :
    entity_name_of people places events vm =
      (events.find? (fun ev => ev.id = vm.entity_id)).map Event.title := by
  unfold entity_name_of
  rw [if_neg (by rw [htype]; decide), if_neg (by rw [htype]; decide), if_pos htype]
  cases events.find? (fun ev => ev.id = vm.entity_id) <;> rfl

/-- A matching person-typed mention whose id resolves in no entity table is
still returned, with a NULL `entity_name`. -/
theorem verse_entities_unresolved_mention (people : List Person) (places : List Place)
    (events : List Event) (mentions : List VerseMention) (verse_ref : String)
    (vm : VerseMention) (hvm : vm ∈ mentions)
    (href : vm.verse_ref = _to_theographic_ref verse_ref)
    (htype : vm.entity_type = "person")
    (hnores : people.find? (fun p => p.id = vm.entity_id) = none) :
    (⟨"person", vm.entity_id, none⟩ : EntityRow) ∈
      (graph_get_verse_entities people places events mentions verse_ref).people := by
  have hname : entity_name_of people places events vm = none := by
    unfold entity_name_of
    rw [if_pos htype, hnores]
    rw [if_neg (by rw [htype]; decide), if_neg (by rw [htype]; decide)]
    rfl
  have hrow : (⟨vm.entity_type, vm.entity_id,
      entity_name_of people places events vm⟩ : EntityRow) =
      ⟨"person", vm.entity_id, none⟩ := by
    rw [htype, hname]
  unfold graph_get_verse_entities bucketize
  apply List.mem_filter.mpr
  constructor
  · rw [← hrow]
    apply List.mem_map_of_mem
    apply List.mem_filter.mpr
    exact ⟨hvm, by simpa using href⟩
  · simp

/-- C1: for every ordered verse sequence, the closed passage runs concatenate
back to the input in order (each verse in exactly one run), no emitted run is
empty, and the empty input yields an empty passage list. -/
theorem claim_C1 (verses : List VerseRow) :
    ((build_passages_groups verses).map Prod.fst).flatten = verses ∧
    (∀ g ∈ build_passages_groups verses, g.1 ≠ []) ∧
    build_passages ([] : List VerseRow) = [] := by
  refine ⟨build_passages_loop_flatten verses none [], ?_, rfl⟩
  exact build_passages_loop_ne_nil verses none []

theorem claim_C1_witness :
    ((build_passages_groups exVerses).map Prod.fst).flatten = exVerses ∧
    (∀ g ∈ build_passages_groups exVerses, g.1 ≠ []) :=
  ⟨(claim_C1 exVerses).1, (claim_C1 exVerses).2.1⟩

/-- C2: `graph_find_path` returns `[]` exactly when the endpoints coincide or
no walk of 1..max_depth bidirectional family edges connects them; otherwise
the returned step list is a connecting path from `p1` to `p2` over adjacency
edges, numbered from depth 1, of minimal length among all connecting walks. -/
theorem claim_C2 (people : List Person) (edges : List FamilyEdge) (p1 p2 : String)
    (max_depth : Nat) :
    (graph_find_path people edges p1 p2 max_depth = [] ↔
      p1 = p2 ∨ ∀ m, 1 ≤ m → m ≤ max_depth → ¬ Walk (adjacency edges) p1 p2 m) ∧
    (∀ steps, steps = graph_find_path people edges p1 p2 max_depth → steps ≠ [] →
      1 ≤ steps.length ∧ steps.length ≤ max_depth ∧
      Walk (adjacency edges) p1 p2 steps.length ∧
      (∀ m, Walk (adjacency edges) p1 p2 m → steps.length ≤ m) ∧
      (steps.map (fun s => s.current_id)).head? = some p1 ∧
      (steps.map (fun s => s.next_id)).getLast? = some p2 ∧
      List.Chain' (fun s t => s.next_id = t.current_id) steps ∧
      (∀ s ∈ steps, (s.next_id, s.relationship_type) ∈ adjacency edges s.current_id) ∧
      steps.map (fun s => s.depth) = List.range' 1 steps.length) := by
  constructor
  · rw [graph_find_path_empty_iff]
    constructor
    · rintro (h | h)
      · exact Or.inl h
      · exact Or.inr (fun m _ hN => h m hN)
    · rintro (h | h)
      · exact Or.inl h
      · by_cases hp : p1 = p2
        · exact Or.inl hp
        · refine Or.inr (fun m hm => ?_)
          cases m with
          | zero => intro hw; exact hp (walk_zero hw)
          | succ m2 => exact h (m2 + 1) (by omega) hm
  · intro steps hsteps hne
    have h2 : graph_find_path people edges p1 p2 max_depth ≠ [] := by
      rw [← hsteps]; exact hne
    obtain ⟨-, h1, hN, hw, hmin, hhd, hlast, hchain, hedge, hdepth⟩ :=
      graph_find_path_nonempty_spec people edges p1 p2 max_depth h2 steps hsteps
    exact ⟨h1, hN, hw, hmin, hhd, hlast, hchain, hedge, hdepth⟩

theorem claim_C2_witness :
    1 ≤ (graph_find_path exPeople exEdges "abraham" "jacob" 5).length ∧
    (graph_find_path exPeople exEdges "abraham" "jacob" 5).length ≤ 5 ∧
    Walk (adjacency exEdges) "abraham" "jacob"
      (graph_find_path exPeople exEdges "abraham" "jacob" 5).length ∧
    graph_find_path exPeople exEdges "x" "x" 5 = [] := by
  have h := (claim_C2 exPeople exEdges "abraham" "jacob" 5).2
    (graph_find_path exPeople exEdges "abraham" "jacob" 5) rfl (by decide)
  exact ⟨h.1, h.2.1, h.2.2.1,
    (claim_C2 exPeople exEdges "x" "x" 5).1.mpr (Or.inl rfl)⟩

/-- C3 counterexample: with a shared grandfather `g` (father of both of `x`'s
parents), `graph_get_ancestors` emits `g` twice — `UNION ALL` keeps one row
per derivation path, so a person reachable by two parent paths does appear as
two rows, refuting "each discovered person is emitted exactly once". -/
theorem claim_C3_counterexample :
    ((graph_get_ancestors c3people c3edges "x" 10).filter
      (fun r => r.id = "g")).map (fun r => (r.generation, r.relationship)) =
      [(2, "father_of"), (2, "father_of")] ∧
    ¬ ((graph_get_ancestors c3people c3edges "x" 10).countP (fun r => r.id = "g") ≤ 1) := by
  decide

/-- C3 (amended): each discovered person is emitted once per parent-edge walk
that reaches it — the row multiplicity of person `q` at generation `g` with
relationship `rel` equals the number of length-`g` walks from the queried
person to `q` whose last edge has type `rel`, for both `graph_get_ancestors`
(child-to-parent walks) and `graph_get_descendants` (parent-to-child walks):
each row carries the generation of its walk and the relationship type of the
walk's last edge. Hypotheses: ids are primary keys, the queried person
exists, and edge endpoints exist. -/
theorem claim_C3 (people : List Person) (edges : List FamilyEdge) (pid : String)
    (p0 : Person) (max_generations : Nat)
    (hnodup : (people.map Person.id).Nodup) (hp0 : p0 ∈ people) (hpid : p0.id = pid)
    (hfrom : ∀ e ∈ edges, ∃ p ∈ people, p.id = e.from_person_id)
    (hto : ∀ e ∈ edges, ∃ p ∈ people, p.id = e.to_person_id)
    (q rel : String) (g : Nat) (hg : g ≤ max_generations) :
    (graph_get_ancestors people edges pid max_generations).countP
        (fun r => r.id = q ∧ r.generation = g ∧ r.relationship = rel) =
      (familyPaths edges (fun e => e.to_person_id) (fun e => e.from_person_id) pid g).countP
        (fun path => pathEnd (fun e => e.from_person_id) pid path = q ∧
          lastRel path = rel) ∧
    (graph_get_descendants people edges pid max_generations).countP
        (fun r => r.id = q ∧ r.generation = g ∧ r.relationship = rel) =
      (familyPaths edges (fun e => e.from_person_id) (fun e => e.to_person_id) pid g).countP
        (fun path => pathEnd (fun e => e.to_person_id) pid path = q ∧
          lastRel path = rel) := by
  constructor
  · show (cteBase people pid ++ cteLevels (ancestors_step people edges max_generations)
        (max_generations + 1) (cteBase people pid)).countP _ = _
    unfold ancestors_step
    exact cte_count_paths people edges max_generations _ _ pid p0 hnodup hp0 hpid hfrom
      q rel g hg
  · show (cteBase people pid ++ cteLevels (descendants_step people edges max_generations)
        (max_generations + 1) (cteBase people pid)).countP _ = _
    unfold descendants_step
    exact cte_count_paths people edges max_generations _ _ pid p0 hnodup hp0 hpid hto
      q rel g hg

theorem claim_C3_witness :
    (graph_get_ancestors c3people c3edges "x" 10).countP
        (fun r => r.id = "g" ∧ r.generation = 2 ∧ r.relationship = "father_of") =
      (familyPaths c3edges (fun e => e.to_person_id) (fun e => e.from_person_id) "x" 2).countP
        (fun path => pathEnd (fun e => e.from_person_id) "x" path = "g" ∧
          lastRel path = "father_of") :=
  (claim_C3 c3people c3edges "x" (mkPerson "x" "X") 10 (by decide) (by decide) (by decide)
    (by decide) (by decide) "g" "father_of" 2 (by decide)).1

/-- C4: `normalize` maps "John 3:16" to "Jhn.3.16" (case-insensitively —
"JOHN 3:16" gives the same), builds the key from the range start discarding
the range end (generally: two inputs whose stripped forms match the grammar
with identical book/chapter/start groups normalize identically, whatever
their range ends; concretely "1 Corinthians 13:4-7" ↦ "1Co.13.4"), falls back
to title-casing the first three characters of an unknown book token
("Foobar 2:3" ↦ "Foo.2.3"), and returns any non-matching input unchanged. -/
theorem claim_C4 :
    _normalize_reference "John 3:16" = "Jhn.3.16" ∧
    _normalize_reference "JOHN 3:16" = "Jhn.3.16" ∧
    _normalize_reference "1 Corinthians 13:4-7" = "1Co.13.4" ∧
    _normalize_reference "Foobar 2:3" = "Foo.2.3" ∧
    (∀ s : String, matchReference (stripChars s.data) = none →
      _normalize_reference s = s) ∧
    (∀ (s1 s2 : String) (b ch v : List Char) (e1 e2 : Option (List Char)),
      matchReference (stripChars s1.data) = some (b, ch, v, e1) →
      matchReference (stripChars s2.data) = some (b, ch, v, e2) →
      _normalize_reference s1 = _normalize_reference s2) := by
  refine ⟨by decide, by decide, by decide, by decide, ?_, ?_⟩
  · intro s h
    show String.mk (normalizeChars s.data) = s
    rw [normalizeChars_of_none s.data h]
  · intro s1 s2 b ch v e1 e2 h1 h2
    show String.mk (normalizeChars s1.data) = String.mk (normalizeChars s2.data)
    unfold normalizeChars
    rw [h1, h2]

theorem claim_C4_witness :
    _normalize_reference "no citation here" = "no citation here" ∧
    _normalize_reference "John 3:16-20" = _normalize_reference "John 3:16" :=
  ⟨claim_C4.2.2.2.2.1 "no citation here" (by decide),
   claim_C4.2.2.2.2.2 "John 3:16-20" "John 3:16" "John".data "3".data "16".data
     (some "20".data) none (by decide) (by decide)⟩

/-- C5: `normalize` is idempotent on every string: a successful match builds a
colon-free `Code.Chapter.Verse` key, which cannot match the grammar again, and
a failed match returns the input unchanged. -/
theorem claim_C5 (s : String) :
    _normalize_reference (_normalize_reference s) = _normalize_reference s := by
  show String.mk (normalizeChars (String.mk (normalizeChars s.data)).data) = _
  exact congrArg String.mk (normalizeChars_idem s.data)

/-- C6 counterexample: in `c6edges` the forward query finds the
`father_of`/`father_of` route while the reverse query finds the
`partner_of`/`partner_of` route, so the reverse path's labels are not the
step-reversed inverses (`child_of`/`child_of`) of the forward path's. -/
theorem claim_C6_counterexample :
    (graph_find_path [] c6edges "a" "b" 5).map (fun s => s.relationship_type) =
      ["father_of", "father_of"] ∧
    (graph_find_path [] c6edges "b" "a" 5).map (fun s => s.relationship_type) =
      ["partner_of", "partner_of"] ∧
    (graph_find_path [] c6edges "b" "a" 5).map (fun s => s.relationship_type) ≠
      ((graph_find_path [] c6edges "a" "b" 5).map
        (fun s => inverseRelOf s.relationship_type)).reverse := by
  decide

/-- C6 (amended): if `find_path a b N` is non-empty then `find_path b a N` is
non-empty of the same length (both are shortest over the symmetric adjacency);
the step-for-step inverse-label correspondence does not hold in general — when
several shortest paths exist the two directions may pick different ones. -/
theorem claim_C6 (people : List Person) (edges : List FamilyEdge) (a b : String)
    (max_depth : Nat) (h : graph_find_path people edges a b max_depth ≠ []) :
    graph_find_path people edges b a max_depth ≠ [] ∧
    (graph_find_path people edges b a max_depth).length =
      (graph_find_path people edges a b max_depth).length := by
  obtain ⟨hab, -, hN, hw, hmin, -, -, -, -, -⟩ :=
    graph_find_path_nonempty_spec people edges a b max_depth h _ rfl
  have hnb : graph_find_path people edges b a max_depth ≠ [] := by
    rw [Ne, graph_find_path_empty_iff]
    rintro (hba | hno)
    · exact hab hba.symm
    · exact hno _ hN (walk_symm edges hw)
  obtain ⟨-, -, -, hwb, hminb, -, -, -, -, -⟩ :=
    graph_find_path_nonempty_spec people edges b a max_depth hnb _ rfl
  refine ⟨hnb, Nat.le_antisymm ?_ ?_⟩
  · exact hminb _ (walk_symm edges hw)
  · exact hmin _ (walk_symm edges hwb)

theorem claim_C6_witness :
    graph_find_path exPeople exEdges "jacob" "abraham" 5 ≠ [] ∧
    (graph_find_path exPeople exEdges "jacob" "abraham" 5).length =
      (graph_find_path exPeople exEdges "abraham" "jacob" 5).length :=
  claim_C6 exPeople exEdges "abraham" "jacob" 5 (by decide)

/-- C7: both closures terminate at the generation bound — iterating the
recursive step any number of levels past `max_generations + 1` changes
nothing, even on cyclic edge sets, and every emitted row's generation is at
most `max_generations`; and when the queried person exists (unique id row)
and has no walked-side parent edge, the result is exactly the single `self`
row at generation 0. -/
theorem claim_C7 (people : List Person) (edges : List FamilyEdge) (person_id : String)
    (max_generations : Nat) :
    (∀ extra : Nat,
      cteBase people person_id ++
        cteLevels (ancestors_step people edges max_generations)
          (max_generations + 1 + extra) (cteBase people person_id) =
      graph_get_ancestors people edges person_id max_generations) ∧
    (∀ extra : Nat,
      cteBase people person_id ++
        cteLevels (descendants_step people edges max_generations)
          (max_generations + 1 + extra) (cteBase people person_id) =
      graph_get_descendants people edges person_id max_generations) ∧
    (∀ r ∈ graph_get_ancestors people edges person_id max_generations,
      r.generation ≤ max_generations) ∧
    (∀ r ∈ graph_get_descendants people edges person_id max_generations,
      r.generation ≤ max_generations) ∧
    (∀ p : Person, people.filter (fun q => q.id = person_id) = [p] →
      (∀ e ∈ edges, ¬(e.to_person_id = person_id ∧ parentRel e)) →
      graph_get_ancestors people edges person_id max_generations =
        [⟨p.id, p.name, p.gender, p.birth_year, p.death_year, 0, "self"⟩]) ∧
    (∀ p : Person, people.filter (fun q => q.id = person_id) = [p] →
      (∀ e ∈ edges, ¬(e.from_person_id = person_id ∧ parentRel e)) →
      graph_get_descendants people edges person_id max_generations =
        [⟨p.id, p.name, p.gender, p.birth_year, p.death_year, 0, "self"⟩]) := by
  have hbase : ∀ r ∈ cteBase people person_id,
      max_generations < r.generation + (max_generations + 1) := by
    intro r hr
    rcases List.mem_map.mp hr with ⟨p, _, hpr⟩
    rw [← hpr]
    show max_generations < 0 + (max_generations + 1)
    omega
  refine ⟨?_, ?_, ?_, ?_, ?_, ?_⟩
  · intro extra
    show cteBase people person_id ++
      cteLevels (familyStep people edges max_generations _ _) (max_generations + 1 + extra)
        (cteBase people person_id) = _
    rw [cteLevels_stable people edges max_generations _ _ (max_generations + 1) extra
      (cteBase people person_id) hbase]
    rfl
  · intro extra
    show cteBase people person_id ++
      cteLevels (familyStep people edges max_generations _ _) (max_generations + 1 + extra)
        (cteBase people person_id) = _
    rw [cteLevels_stable people edges max_generations _ _ (max_generations + 1) extra
      (cteBase people person_id) hbase]
    rfl
  · intro r hr
    rcases List.mem_append.mp hr with hr | hr
    · rcases List.mem_map.mp hr with ⟨p, _, hpr⟩
      rw [← hpr]
      exact Nat.zero_le _
    · exact cteLevels_gen_le people edges max_generations _ _ (max_generations + 1)
        (cteBase people person_id) r hr
  · intro r hr
    rcases List.mem_append.mp hr with hr | hr
    · rcases List.mem_map.mp hr with ⟨p, _, hpr⟩
      rw [← hpr]
      exact Nat.zero_le _
    · exact cteLevels_gen_le people edges max_generations _ _ (max_generations + 1)
        (cteBase people person_id) r hr
  · intro p hp hedge
    exact cte_single_row people edges max_generations _ _ person_id p hp hedge
  · intro p hp hedge
    exact cte_single_row people edges max_generations _ _ person_id p hp hedge

theorem claim_C7_witness :
    graph_get_ancestors exPeople [] "terah" 10 =
      [⟨"terah", "Terah", none, none, none, 0, "self"⟩] ∧
    graph_get_descendants exPeople [] "terah" 10 =
      [⟨"terah", "Terah", none, none, none, 0, "self"⟩] ∧
    cteBase exPeople "jacob" ++
      cteLevels (ancestors_step exPeople exEdges 3) (3 + 1 + 2) (cteBase exPeople "jacob") =
      graph_get_ancestors exPeople exEdges "jacob" 3 :=
  ⟨(claim_C7 exPeople [] "terah" 10).2.2.2.2.1 (mkPerson "terah" "Terah") (by decide)
      (by decide),
   (claim_C7 exPeople [] "terah" 10).2.2.2.2.2 (mkPerson "terah" "Terah") (by decide)
      (by decide),
   (claim_C7 exPeople exEdges "jacob" 3).1 2⟩

/-- C8: every modelled lookup returns an empty collection when nothing
matches: `graph_find_person` with no WHERE-clause match returns `[]`; the
verse-level `entities_for` for any reference with no mention row equal to its
translated key returns three empty buckets, and so does the chapter-level
`entities_for` for any book and chapter with no mention row matching its LIKE
pattern; and `graph_find_path` returns `[]` when no walk within the depth
bound exists. -/
theorem claim_C8 :
    (∀ (people : List Person) (edges : List FamilyEdge) (name : String),
      (∀ p ∈ people, person_matches name p = false) →
      graph_find_person people edges name = []) ∧
    (∀ (people : List Person) (places : List Place) (events : List Event)
        (mentions : List VerseMention) (verse_ref : String),
      (∀ vm ∈ mentions, vm.verse_ref ≠ _to_theographic_ref verse_ref) →
      graph_get_verse_entities people places events mentions verse_ref =
        ⟨[], [], []⟩) ∧
    (∀ (people : List Person) (places : List Place) (events : List Event)
        (mentions : List VerseMention) (book : String) (chapter : Nat),
      (∀ vm ∈ mentions,
        sqlLike (chapterPattern book chapter).data vm.verse_ref.data = false) →
      graph_get_chapter_entities people places events mentions book chapter =
        ⟨[], [], []⟩) ∧
    (∀ (people : List Person) (edges : List FamilyEdge) (p1 p2 : String)
        (max_depth : Nat),
      (∀ m, m ≤ max_depth → ¬ Walk (adjacency edges) p1 p2 m) →
      graph_find_path people edges p1 p2 max_depth = []) := by
  refine ⟨graph_find_person_of_no_match, graph_get_verse_entities_of_no_match,
    graph_get_chapter_entities_of_no_match, ?_⟩
  intro people edges p1 p2 max_depth h
  rw [graph_find_path_empty_iff]
  exact Or.inr h

theorem claim_C8_witness :
    graph_find_person [mkPerson "m1" "Moses"] [] "David" = [] ∧
    graph_get_verse_entities [] [] [] [⟨"Exod.2.2", "person", "p9"⟩] "Gen.1.1" =
      ⟨[], [], []⟩ ∧
    graph_get_chapter_entities [] [] [] [⟨"Exod.2.2", "person", "p9"⟩] "Gen" 1 =
      ⟨[], [], []⟩ ∧
    graph_find_path [] [] "u" "w" 3 = [] := by
  refine ⟨claim_C8.1 [mkPerson "m1" "Moses"] [] "David" (by decide),
    claim_C8.2.1 [] [] [] [⟨"Exod.2.2", "person", "p9"⟩] "Gen.1.1" (by decide),
    claim_C8.2.2.1 [] [] [] [⟨"Exod.2.2", "person", "p9"⟩] "Gen" 1 (by decide),
    claim_C8.2.2.2 [] [] "u" "w" 3 ?_⟩
  intro m _ hw
  cases m with
  | zero => exact absurd (walk_zero hw) (by decide)
  | succ m2 =>
    rcases walk_snoc_inv hw with ⟨y, r, _, hmem⟩
    exact absurd hmem (by simp [adjacency, adjacencyEntries])

/-- When the mention is person-typed, the COALESCE name is exactly the
(optional) name found in the people table. -/
theorem entity_name_of_person (people : List Person) (places : List Place)
    (events : List Event) (vm : VerseMention) (htype : vm.entity_type = "person") :
    entity_name_of people places events vm =
      (people.find? (fun p => p.id = vm.entity_id)).map Person.name := by
  unfold entity_name_of
  rw [if_pos htype, if_neg (by rw [htype]; decide), if_neg (by rw [htype]; decide)]
  cases people.find? (fun p => p.id = vm.entity_id) <;> rfl

/-- Every matching person-typed mention contributes one row to the `people`
bucket, whose `entity_name` is the people-table lookup result. -/
theorem verse_entities_person_row (people : List Person) (places : List Place)
    (events : List Event) (mentions : List VerseMention) (verse_ref : String)
    (vm : VerseMention) (hvm : vm ∈ mentions)
    (href : vm.verse_ref = _to_theographic_ref verse_ref)
    (htype : vm.entity_type = "person") :
    (⟨"person", vm.entity_id,
        (people.find? (fun p => p.id = vm.entity_id)).map Person.name⟩ : EntityRow) ∈
      (graph_get_verse_entities people places events mentions verse_ref).people := by
  have hname := entity_name_of_person people places events vm htype
  unfold graph_get_verse_entities bucketize
  apply List.mem_filter.mpr
  refine ⟨?_, by simp⟩
  have hrow : (⟨vm.entity_type, vm.entity_id,
      entity_name_of people places events vm⟩ : EntityRow) =
      ⟨"person", vm.entity_id,
        (people.find? (fun p => p.id = vm.entity_id)).map Person.name⟩ := by
    rw [htype, hname]
  rw [← hrow]
  apply List.mem_map_of_mem
  exact List.mem_filter.mpr ⟨hvm, by simpa using href⟩

/-- C9 counterexample: for the single matching person-typed mention with id
`p1` and empty entity tables, the verse query returns the row with a NULL
`entity_name`, and the row carrying the raw id string as its name is NOT in
the result — the claimed raw-id fallback does not happen in the query. -/
theorem claim_C9_counterexample :
    (graph_get_verse_entities [] [] [] c9mentions "Jhn.3.16").people =
      [⟨"person", "p1", none⟩] ∧
    (⟨"person", "p1", some "p1"⟩ : EntityRow) ∉
      (graph_get_verse_entities [] [] [] c9mentions "Jhn.3.16").people := by
  decide

/-- C9 (amended): every matching mention edge — person-, place- or
event-typed, in the verse-level and in the chapter-level query — is returned
as one row in the bucket of its `entity_type`, and its `entity_name` is
exactly the lookup in the entity table corresponding to that type (the
COALESCE over the type-guarded LEFT JOINs): a resolvable id yields that
table's name (title for events) and an unresolvable id yields NULL — the
mention is not dropped, and the raw id string is never used as the name. -/
theorem claim_C9 (people : List Person) (places : List Place) (events : List Event)
    (mentions : List VerseMention) (vm : VerseMention) (hvm : vm ∈ mentions) :
    (vm.entity_type = "person" → entity_name_of people places events vm =
      (people.find? (fun p => p.id = vm.entity_id)).map Person.name) ∧
    (vm.entity_type = "place" → entity_name_of people places events vm =
      (places.find? (fun pl => pl.id = vm.entity_id)).map Place.name) ∧
    (vm.entity_type = "event" → entity_name_of people places events vm =
      (events.find? (fun ev => ev.id = vm.entity_id)).map Event.title) ∧
    (∀ verse_ref : String, vm.verse_ref = _to_theographic_ref verse_ref →
      (vm.entity_type = "person" →
        (⟨vm.entity_type, vm.entity_id, entity_name_of people places events vm⟩ :
            EntityRow) ∈
          (graph_get_verse_entities people places events mentions verse_ref).people) ∧
      (vm.entity_type = "place" →
        (⟨vm.entity_type, vm.entity_id, entity_name_of people places events vm⟩ :
            EntityRow) ∈
          (graph_get_verse_entities people places events mentions verse_ref).places) ∧
      (vm.entity_type = "event" →
        (⟨vm.entity_type, vm.entity_id, entity_name_of people places events vm⟩ :
            EntityRow) ∈
          (graph_get_verse_entities people places events mentions verse_ref).events)) ∧
    (∀ (book : String) (chapter : Nat),
      sqlLike (chapterPattern book chapter).data vm.verse_ref.data = true →
      (vm.entity_type = "person" →
        (⟨vm.entity_type, vm.entity_id, entity_name_of people places events vm⟩ :
            EntityRow) ∈
          (graph_get_chapter_entities people places events mentions book
            chapter).people) ∧
      (vm.entity_type = "place" →
        (⟨vm.entity_type, vm.entity_id, entity_name_of people places events vm⟩ :
            EntityRow) ∈
          (graph_get_chapter_entities people places events mentions book
            chapter).places) ∧
      (vm.entity_type = "event" →
        (⟨vm.entity_type, vm.entity_id, entity_name_of people places events vm⟩ :
            EntityRow) ∈
          (graph_get_chapter_entities people places events mentions book
            chapter).events)) := by
  refine ⟨entity_name_of_person people places events vm,
    entity_name_of_place people places events vm,
    entity_name_of_event people places events vm, ?_, ?_⟩
  · intro verse_ref href
    have hmem : (⟨vm.entity_type, vm.entity_id,
        entity_name_of people places events vm⟩ : EntityRow) ∈
        (mentions.filter (fun w => w.verse_ref = _to_theographic_ref verse_ref)).map
          (fun w => ⟨w.entity_type, w.entity_id,
            entity_name_of people places events w⟩) :=
      List.mem_map_of_mem _ (List.mem_filter.mpr ⟨hvm, by simpa using href⟩)
    exact mem_bucketize _ _ hmem
  · intro book chapter hlike
    have hmem : (⟨vm.entity_type, vm.entity_id,
        entity_name_of people places events vm⟩ : EntityRow) ∈
        (mentions.filter (fun w =>
          sqlLike (chapterPattern book chapter).data w.verse_ref.data)).map
          (fun w => ⟨w.entity_type, w.entity_id,
            entity_name_of people places events w⟩) :=
      List.mem_map_of_mem _ (List.mem_filter.mpr ⟨hvm, by simpa using hlike⟩)
    have hded := (mem_dedupRows _ _ []).mpr ⟨hmem, by simp⟩
    have hb := mem_bucketize _ _ hded
    rw [graph_get_chapter_entities_eq]
    exact hb

theorem claim_C9_witness :
    (⟨"person", "p1", some "Paul"⟩ : EntityRow) ∈
      (graph_get_verse_entities [mkPerson "p1" "Paul"] [] [] c9mentions
        "Jhn.3.16").people ∧
    (⟨"person", "p1", none⟩ : EntityRow) ∈
      (graph_get_verse_entities [] [] [] c9mentions "Jhn.3.16").people ∧
    (⟨"person", "p1", none⟩ : EntityRow) ∈
      (graph_get_chapter_entities [] [] [] c9mentions "Jhn" 3).people := by
  refine ⟨?_, ?_, ?_⟩
  · exact ((claim_C9 [mkPerson "p1" "Paul"] [] [] c9mentions
      ⟨"John.3.16", "person", "p1"⟩ (by decide)).2.2.2.1 "Jhn.3.16" (by decide)).1 rfl
  · exact ((claim_C9 [] [] [] c9mentions
      ⟨"John.3.16", "person", "p1"⟩ (by decide)).2.2.2.1 "Jhn.3.16" (by decide)).1 rfl
  · exact ((claim_C9 [] [] [] c9mentions
      ⟨"John.3.16", "person", "p1"⟩ (by decide)).2.2.2.2 "Jhn" 3 (by decide)).1 rfl

/-- C10: the Theographic translation map has exactly 44 entries; the lookup
rewrites `Jhn.3.16` to `John.3.16` and leaves `Gen.1.1` unchanged; and for
every mapped book code, mention rows stored under the untranslated canonical
reference are returned by no verse-level query and no chapter-level query. -/
theorem claim_C10 (k tv : String)
    (hk : lookupStr _THEOGRAPHIC_BOOK_MAP k = some tv)
    (mentions : List VerseMention)
    (hm : ∀ vm ∈ mentions, ∃ t : List Char,
      vm.verse_ref = String.mk (k.data ++ '.' :: t)) :
    _THEOGRAPHIC_BOOK_MAP.length = 44 ∧
    _to_theographic_ref "Jhn.3.16" = "John.3.16" ∧
    _to_theographic_ref "Gen.1.1" = "Gen.1.1" ∧
    (∀ (people : List Person) (places : List Place) (events : List Event)
        (ref : String),
      graph_get_verse_entities people places events mentions ref = ⟨[], [], []⟩) ∧
    (∀ (people : List Person) (places : List Place) (events : List Event)
        (chapter : Nat),
      graph_get_chapter_entities people places events mentions k chapter =
        ⟨[], [], []⟩) := by
  have h := untranslated_key_unreachable k tv hk mentions hm
  exact ⟨by decide, by decide, by decide, h.2.1, h.2.2⟩

theorem claim_C10_witness :
    _THEOGRAPHIC_BOOK_MAP.length = 44 ∧
    _to_theographic_ref "Jhn.3.16" = "John.3.16" ∧
    _to_theographic_ref "Gen.1.1" = "Gen.1.1" ∧
    graph_get_verse_entities [] [] [] c10mentions "Jhn.3.16" = ⟨[], [], []⟩ ∧
    graph_get_chapter_entities [] [] [] c10mentions "Jhn" 3 = ⟨[], [], []⟩ := by
  have h := claim_C10 "Jhn" "John" (by decide) c10mentions
    (by
      intro vm hvm
      have hvm2 : vm = ⟨"Jhn.3.16", "person", "p1"⟩ := by
        simpa [c10mentions] using hvm
      subst hvm2
      exact ⟨"3.16".data, by decide⟩)
  exact ⟨h.1, h.2.1, h.2.2.1, h.2.2.2.1 [] [] [] "Jhn.3.16",
    h.2.2.2.2 [] [] [] 3⟩

end StudyBible
